import Mathlib

set_option maxHeartbeats 1000000
set_option linter.unusedVariables false

/-! Shallow embedding of the in-place remediation core of osv-scanner:
`internal/resolution/dependency_chain.go` and the `remediation` package
(`ComputeInPlacePatches`, `findFixedVersion`, `inPlaceVulnsNodes`,
`buildConstraintSet`, `dependenciesSatisfied`).

External collaborators (the vulnerability matcher, the version and
requirement clients, and the `deps.dev/util/semver` library) are modelled
as oracle functions bundled in a `Collab` structure; machine maps are
modelled as association lists in insertion order (one admissible iteration
order of a Go map).  Go panics from out-of-range slice indexing are
modelled by `Option`-valued results (`none` = panic) at the indexing sites
the claims examine; node lookups of well-formed graphs are totalised with
a default value.  The BFS queue loop of `ComputeChains` is given explicit
fuel; its results are studied for every fuel value. -/

/-- Version kind tag of `resolve.VersionKey` (Concrete vs Requirement). -/
inductive VersionType where
  | concrete
  | requirement
deriving DecidableEq, Repr

/-- Models `resolve.PackageKey`: the ecosystem (`System`) and the name. -/
structure PackageKey where
  system : Nat
  name : String
deriving DecidableEq, Repr

/-- Models `resolve.VersionKey`. -/
structure VersionKey where
  pkg : PackageKey
  version : String
  versionType : VersionType
deriving DecidableEq, Repr

/-- Models `resolve.Edge`: `From`, `To` (node indices) and the requirement string. -/
structure Edge where
  src : Nat
  dst : Nat
  requirement : String
deriving DecidableEq, Repr

/-- Models `resolve.Graph`: nodes (node 0 is the root) and edges. -/
structure Graph where
  nodes : List VersionKey
  edges : List Edge
deriving DecidableEq, Repr

/-- Default version key, used to totalise node lookups of well-formed graphs. -/
def dfltVK : VersionKey := ⟨⟨0, ""⟩, "", VersionType.concrete⟩

/-- Models `resolution.DependencyChain`: the edge from the root node is at
the end of the list (index 0 is nearest the vulnerable node). -/
structure DependencyChain where
  graph : Graph
  edges : List Edge
deriving DecidableEq, Repr

/-- Models `DependencyChain.DirectDependency`: reads `dc.Edges[len(dc.Edges)-1]`
(the edge touching the root) and returns the target node's version and the
edge's requirement string.  `none` models the Go panic on an empty chain or
an out-of-range node index. -/
def DependencyChain.DirectDependency (dc : DependencyChain) : Option (VersionKey × String) :=
  match dc.edges.getLast? with
  | none => none
  | some edge => (dc.graph.nodes.get? edge.dst).map (fun vk => (vk, edge.requirement))

/-- Models `DependencyChain.EndDependency`: reads `dc.Edges[0]` (the edge
nearest the vulnerable node) and returns the target node's version and the
edge's requirement string.  `none` models the Go panic on an empty chain or
an out-of-range node index. -/
def DependencyChain.EndDependency (dc : DependencyChain) : Option (VersionKey × String) :=
  match dc.edges.head? with
  | none => none
  | some edge => (dc.graph.nodes.get? edge.dst).map (fun vk => (vk, edge.requirement))

/-- Models the `parentEdges` reverse adjacency index of `ComputeChains`:
incoming edges of a node, self-dependencies discarded, in edge-list order. -/
def parentEdges (g : Graph) (n : Nat) : List Edge :=
  g.edges.filter (fun e => !(e.src == e.dst) && (e.dst == n))

/-- Models the queue loop of `ComputeChains` for one target node: pop a chain,
emit it when its root-side edge leaves node 0, otherwise extend it with every
incoming edge of that source whose target is not already in the chain.
`fuel` bounds the number of iterations of the Go `for len(toProcess) > 0`
loop (which terminates because the cycle guard bounds chain lengths). -/
def computeChainsGo (g : Graph) : Nat → List DependencyChain → List DependencyChain →
    List DependencyChain
  | 0, _, acc => acc
  | _ + 1, [], acc => acc
  | fuel + 1, chain :: rest, acc =>
    match chain.edges.getLast? with
    | none => computeChainsGo g fuel rest acc
    | some edge =>
      if edge.src = 0 then
        computeChainsGo g fuel rest (acc ++ [chain])
      else
        computeChainsGo g fuel
          (rest ++ ((parentEdges g edge.src).filter
            (fun p => !(chain.edges.any (fun e => e.dst == p.dst)))).map
            (fun p => DependencyChain.mk g (chain.edges ++ [p]))) acc

/-- Models one iteration of the outer loop of `ComputeChains`: all chains from
`node` up to the root, seeded with the incoming edges of `node`. -/
def computeChainsFor (g : Graph) (fuel : Nat) (node : Nat) : List DependencyChain :=
  computeChainsGo g fuel ((parentEdges g node).map (fun e => DependencyChain.mk g [e])) []

/-- Models `resolution.ComputeChains`. -/
def ComputeChains (g : Graph) (nodes : List Nat) (fuel : Nat) : List (List DependencyChain) :=
  nodes.map (computeChainsFor g fuel)

/-- The sequence of nodes a chain passes through: the target of its first
edge (the vulnerable node) followed by the sources of all its edges. -/
def chainVisits (dc : DependencyChain) : List Nat :=
  match dc.edges with
  | [] => []
  | e :: _ => e.dst :: dc.edges.map (fun e => e.src)

/-- Invariant of every chain in the work queue of `computeChainsGo` for
target `node`: nonempty, self-loop free, consecutively linked, with pairwise
distinct edge targets, starting at `node`, and with every non-final edge
leaving a non-root node. -/
def ChainWF (node : Nat) (dc : DependencyChain) : Prop :=
  dc.edges ≠ [] ∧
  (∀ e ∈ dc.edges, e.src ≠ e.dst) ∧
  List.Chain' (fun a b => b.dst = a.src) dc.edges ∧
  (dc.edges.map (fun e => e.dst)).Nodup ∧
  dc.edges.head?.map (fun e => e.dst) = some node ∧
  ∀ e ∈ dc.edges.dropLast, e.src ≠ 0

/-- Node-visit list of a raw edge list, as in `chainVisits`. -/
def visitsL : List Edge → List Nat
  | [] => []
  | e :: rest => e.dst :: (e :: rest).map (fun x => x.src)

def c7g : Graph := ⟨[dfltVK, dfltVK], [⟨0, 1, "a"⟩, ⟨1, 0, "b"⟩]⟩

def c7chain : DependencyChain := ⟨c7g, [⟨1, 0, "b"⟩, ⟨0, 1, "a"⟩]⟩

def c7wg : Graph := ⟨[dfltVK, dfltVK], [⟨0, 1, "r"⟩]⟩

def c2vkR : VersionKey := ⟨⟨0, "root"⟩, "1.0.0", VersionType.concrete⟩

def c2vkA : VersionKey := ⟨⟨0, "A"⟩, "1.0.0", VersionType.concrete⟩

def c2vkB : VersionKey := ⟨⟨0, "B"⟩, "1.0.0", VersionType.concrete⟩

def c2chain : DependencyChain :=
  ⟨⟨[c2vkR, c2vkA, c2vkB], [⟨0, 1, "reqA"⟩, ⟨1, 2, "reqB"⟩]⟩,
   [⟨1, 2, "reqB"⟩, ⟨0, 1, "reqA"⟩]⟩

/-- Models `resolution.ResolutionVuln`: the vulnerability (by its ID), the
problem chains, and the DevOnly flag. -/
structure ResolutionVuln where
  vulnerability : String
  problemChains : List DependencyChain
  devOnly : Bool
deriving DecidableEq, Repr

/-- Models `lf.DependencyPatch` together with the embedded vulnerability
list of `remediation.InPlacePatch`. -/
structure InPlacePatch where
  pkg : PackageKey
  origVersion : String
  newVersion : String
  resolvedVulns : List ResolutionVuln
deriving DecidableEq, Repr

/-- Models `remediation.InPlaceResult`. -/
structure InPlaceResult where
  patches : List InPlacePatch
  unfixable : List ResolutionVuln
deriving DecidableEq, Repr

/-- The `(Pkg, OrigVersion, NewVersion)` identity of a patch. -/
def dpTriple (p : InPlacePatch) : PackageKey × String × String :=
  (p.pkg, p.origVersion, p.newVersion)

/-- Models `RemediationOptions`: AllowMajor, AvoidPkgs and the MatchVuln
filter predicate. -/
structure RemediationOptions where
  allowMajor : Bool
  avoidPkgs : List String
  matchVuln : ResolutionVuln → Bool

/-- Classification returned by `semver.Difference` (major vs anything else). -/
inductive Diff where
  | major
  | other
deriving DecidableEq, Repr

/-- A `semver.Set` is modelled by the list of constraint strings intersected
into it; its matching behaviour is an oracle of the collaborator. -/
abbrev SemSet := List String

/-- One entry of a `Requirements` response: the dependency's version key and
the `dep.Type` queries the code performs on it (`IsRegular`, `HasAttr(dep.Opt)`). -/
structure Req where
  key : VersionKey
  isRegular : Bool
  hasOpt : Bool
deriving DecidableEq, Repr

/-- The external collaborators: vulnerability matcher, version and
requirement clients, and the semver library operations, all as oracles.
Errors are identified by numeric codes. -/
structure Collab where
  findVulns : Graph → Except Nat (List (List String))
  versions : PackageKey → Except Nat (List VersionKey)
  requirements : VersionKey → Except Nat (List Req)
  compare : Nat → String → String → Int
  difference : Nat → String → String → Except Nat Diff
  parseConstraint : Nat → String → Except Nat Unit
  intersect : Nat → SemSet → SemSet → Except Nat SemSet
  setMatch : Nat → SemSet → String → Except Nat Bool
  constrMatch : Nat → String → String → Bool
  isAffected : String → VersionKey → Bool

/-- Association-list lookup with a default, modelling a Go map read (the
zero value stands in for a missing key). -/
def assocD {α β : Type} [DecidableEq α] (m : List (α × β)) (k : α) (d : β) : β :=
  match m with
  | [] => d
  | (k', v) :: rest => if k' = k then v else assocD rest k d

/-- Association-list version of `m[k] = append(m[k], v)` on a Go map of
slices; a fresh key is inserted at the end (insertion order stands in for
one admissible Go map iteration order). -/
def assocAppend {α β : Type} [DecidableEq α] : List (α × List β) → α → β → List (α × List β)
  | [], k, v => [(k, [v])]
  | (k', vs) :: rest, k, v =>
    if k' = k then (k', vs ++ [v]) :: rest else (k', vs) :: assocAppend rest k v

/-- Duplicate removal keeping first occurrences, modelling the key set of a
Go `map[string]struct{}` in insertion order. -/
def dedupAcc {α : Type} [DecidableEq α] (seen : List α) : List α → List α
  | [] => []
  | x :: xs => if x ∈ seen then dedupAcc seen xs else x :: dedupAcc (x :: seen) xs

def dedupFirst {α : Type} [DecidableEq α] (l : List α) : List α := dedupAcc [] l

/-- Models `inPlaceVulnsNodesResult`. -/
structure IPVN where
  nodeDependencies : List (Nat × List VersionKey)
  vkVulns : List (VersionKey × List ResolutionVuln)
  vkNodes : List (VersionKey × List Nat)
deriving DecidableEq, Repr

/-- Models the first loop of `inPlaceVulnsNodes`: for every edge whose
source node hosts a vulnerability, record the target's version key as a
direct dependency of the source. -/
def ipvnDeps (g : Graph) (nodeVulns : List (List String)) :
    List Edge → List (Nat × List VersionKey) → List (Nat × List VersionKey)
  | [], acc => acc
  | e :: rest, acc =>
    if (nodeVulns.getD e.src []).isEmpty then ipvnDeps g nodeVulns rest acc
    else ipvnDeps g nodeVulns rest (assocAppend acc e.src (g.nodes.getD e.dst dfltVK))

/-- Node ids hosting at least one vulnerability, in node order (Go ranges
over the `nodeVulns` slice in order). -/
def vulnNodeIDs (nodeVulns : List (List String)) : List Nat :=
  (List.range nodeVulns.length).filter (fun i => !(nodeVulns.getD i []).isEmpty)

/-- Models the find-by-ID merge of `inPlaceVulnsNodes`: if a `ResolutionVuln`
with the same vulnerability ID exists, concatenate its problem chains and
AND its DevOnly flag, else append the new record. -/
def mergeResVuln : List ResolutionVuln → ResolutionVuln → List ResolutionVuln
  | [], rv => [rv]
  | e :: rest, rv =>
    if e.vulnerability = rv.vulnerability then
      { e with problemChains := e.problemChains ++ rv.problemChains,
               devOnly := e.devOnly && rv.devOnly } :: rest
    else e :: mergeResVuln rest rv

/-- `result.vkVulns[vk]` merge-update (missing key starts from the empty list). -/
def vkVulnsAdd : List (VersionKey × List ResolutionVuln) → VersionKey → ResolutionVuln →
    List (VersionKey × List ResolutionVuln)
  | [], vk, rv => [(vk, [rv])]
  | (k, es) :: rest, vk, rv =>
    if k = vk then (k, mergeResVuln es rv) :: rest else (k, es) :: vkVulnsAdd rest vk rv

/-- Inner vulnerability loop of `inPlaceVulnsNodes` for one node. -/
def ipvnAddVulns (vk : VersionKey) (chains : List DependencyChain) :
    List (VersionKey × List ResolutionVuln) → List String →
    List (VersionKey × List ResolutionVuln)
  | m, [] => m
  | m, vId :: rest => ipvnAddVulns vk chains (vkVulnsAdd m vk ⟨vId, chains, false⟩) rest

/-- Outer node loop of `inPlaceVulnsNodes`: for the `i`-th vulnerable node,
record it under its version key and merge in its vulnerabilities (whose
problem chains are the `i`-th chain set, with DevOnly set to false). -/
def ipvnNodesLoop (g : Graph) (nodeVulns : List (List String))
    (nodeChains : List (List DependencyChain)) :
    List (Nat × Nat) → IPVN → IPVN
  | [], acc => acc
  | (i, nID) :: rest, acc =>
    ipvnNodesLoop g nodeVulns nodeChains rest
      { acc with
        vkNodes := assocAppend acc.vkNodes (g.nodes.getD nID dfltVK) nID,
        vkVulns := ipvnAddVulns (g.nodes.getD nID dfltVK) (nodeChains.getD i [])
          acc.vkVulns (nodeVulns.getD nID []) }

/-- Models `inPlaceVulnsNodes`. -/
def inPlaceVulnsNodes (c : Collab) (g : Graph) (fuel : Nat) : Except Nat IPVN :=
  match c.findVulns g with
  | Except.error n => Except.error n
  | Except.ok nodeVulns =>
    let nodeIDs := vulnNodeIDs nodeVulns
    Except.ok (ipvnNodesLoop g nodeVulns (ComputeChains g nodeIDs fuel) nodeIDs.enum
      ⟨ipvnDeps g nodeVulns g.edges [], [], []⟩)

/-- The `"latest"` to wildcard substitution applied to requirement strings. -/
def subLatest (v : String) : String := if v = "latest" then "*" else v

/-- Constraint-accumulation loop of `buildConstraintSet`: parse each further
requirement and intersect it into the set, propagating errors. -/
def bcsLoop (c : Collab) (sys : Nat) : SemSet → List String → Except Nat SemSet
  | cSet, [] => Except.ok cSet
  | cSet, req0 :: rest =>
    let req := subLatest req0
    match c.parseConstraint sys req with
    | Except.error n => Except.error n
    | Except.ok _ =>
      match c.intersect sys cSet [req] with
      | Except.error n => Except.error n
      | Except.ok s => bcsLoop c sys s rest

/-- Models `buildConstraintSet`.  The outer `none` models the Go panic on
`requiredVers[0]` when the list is empty; the inner `Except` carries parse
and intersection errors. -/
def buildConstraintSet (c : Collab) (sys : Nat) (requiredVers : List String) :
    Option (Except Nat SemSet) :=
  match requiredVers with
  | [] => none
  | v0 :: rest =>
    let v := subLatest v0
    match c.parseConstraint sys v with
    | Except.error n => some (Except.error n)
    | Except.ok _ => some (bcsLoop c sys [v] rest)

/-- The requirement strings of the end dependencies of a chain list,
propagating the panic of an `EndDependency` access. -/
def endReqs : List DependencyChain → Option (List String)
  | [] => some []
  | ch :: rest =>
    match ch.EndDependency with
    | none => none
    | some (_, req) =>
      match endReqs rest with
      | none => none
      | some l => some (req :: l)

/-- The deduplicated end-dependency requirement strings of all problem
chains of a vulnerability list (the `reqVers` key set of
`ComputeInPlacePatches`). -/
def reqVersOf (vulns : List ResolutionVuln) : Option (List String) :=
  (endReqs (vulns.flatMap (fun v => v.problemChains))).map dedupFirst

/-- Models the first loop of `ComputeInPlacePatches`: the per-version-key
dependent constraint sets.  Builder errors are swallowed (the key is
skipped); the panic on an empty requirement list propagates as `none`. -/
def computeConstraintMap (c : Collab) :
    List (VersionKey × List ResolutionVuln) → Option (List (VersionKey × SemSet))
  | [] => some []
  | (vk, vulns) :: rest =>
    match reqVersOf vulns with
    | none => none
    | some reqVers =>
      match buildConstraintSet c vk.pkg.system reqVers with
      | none => none
      | some (Except.error _) => computeConstraintMap c rest
      | some (Except.ok set) =>
        match computeConstraintMap c rest with
        | none => none
        | some m => some ((vk, set) :: m)

/-- Models `slices.IndexFunc`: the first index satisfying the predicate
(`none` stands for the Go result `-1`). -/
def indexFunc {α : Type} (q : α → Bool) : List α → Option Nat
  | [] => none
  | x :: xs => if q x then some 0 else (indexFunc q xs).map (fun i => i + 1)

/-- Optional-dependency removal loop of `dependenciesSatisfied`: for every
optional dependency whose package is not among the children, delete the
first regular dependency of the same name.  `none` models the Go panic of
`slices.Delete(deps, -1, 0)` when no regular entry exists. -/
def removeOpts (children : List VersionKey) :
    List VersionKey → List VersionKey → Option (List VersionKey)
  | deps, [] => some deps
  | deps, o :: rest =>
    if children.any (fun vk => vk.pkg.name == o.pkg.name) then
      removeOpts children deps rest
    else
      match indexFunc (fun vk => vk.pkg.name == o.pkg.name) deps with
      | none => none
      | some idx => removeOpts children (deps.eraseIdx idx) rest

/-- Final loop of `dependenciesSatisfied`: every remaining regular
dependency must be satisfied by some current child of the same name; a
constraint-parse failure is a hard error. -/
def checkDeps (c : Collab) (vk : VersionKey) (children : List VersionKey) :
    List VersionKey → Except Nat Bool
  | [] => Except.ok true
  | d :: rest =>
    let ver := subLatest d.version
    match c.parseConstraint vk.pkg.system ver with
    | Except.error n => Except.error n
    | Except.ok _ =>
      if children.any (fun child =>
          child.pkg.name == d.pkg.name && c.constrMatch vk.pkg.system ver child.version) then
        checkDeps c vk children rest
      else Except.ok false

/-- Models `dependenciesSatisfied`.  The outer `none` is the
`slices.Delete` panic; the inner `Except` carries client and parse errors. -/
def dependenciesSatisfied (c : Collab) (vk : VersionKey) (children : List VersionKey) :
    Option (Except Nat Bool) :=
  match c.requirements vk with
  | Except.error n => some (Except.error n)
  | Except.ok reqs =>
    let deps := (reqs.filter (fun r => r.isRegular)).map (fun r => r.key)
    let optDeps := (reqs.filter (fun r => !r.isRegular && r.hasOpt)).map (fun r => r.key)
    match removeOpts children deps optDeps with
    | none => none
    | some deps2 => some (checkDeps c vk children deps2)

/-- First predicate check: the major-version-bump policy (any `Difference`
error or a major classification rejects). -/
def checkMajor (c : Collab) (opts : RemediationOptions) (vk newVK : VersionKey) : Bool :=
  if opts.allowMajor then true
  else
    match c.difference vk.pkg.system vk.version newVK.version with
    | Except.error _ => false
    | Except.ok d => !(d == Diff.major)

/-- Second predicate check: the dependent-constraint set match (any error
or non-match rejects). -/
def checkConstraint (c : Collab) (sys : Nat) (cset : SemSet) (ver : String) : Bool :=
  match c.setMatch sys cset ver with
  | Except.error _ => false
  | Except.ok b => b

/-- Third predicate check over every node instantiating the original
version: its current children must satisfy the candidate's dependencies;
errors reject, panics propagate. -/
def checkNodes (c : Collab) (res : IPVN) (newVK : VersionKey) : List Nat → Option Bool
  | [] => some true
  | nID :: rest =>
    match dependenciesSatisfied c newVK (assocD res.nodeDependencies nID []) with
    | none => none
    | some (Except.error _) => some false
    | some (Except.ok false) => some false
    | some (Except.ok true) => checkNodes c res newVK rest

/-- The candidate predicate passed to `findFixedVersion` by
`ComputeInPlacePatches`: major policy, dependent constraints, child
satisfaction for every instantiating node, then the vulnerability re-check. -/
def satisfyPred (c : Collab) (opts : RemediationOptions) (res : IPVN)
    (cmap : List (VersionKey × SemSet)) (vk : VersionKey) (vuln : ResolutionVuln)
    (newVK : VersionKey) : Option Bool :=
  if !checkMajor c opts vk newVK then some false
  else if !checkConstraint c vk.pkg.system (assocD cmap vk []) newVK.version then some false
  else
    match checkNodes c res newVK (assocD res.vkNodes vk []) with
    | none => none
    | some false => some false
    | some true => some (!c.isAffected vuln.vulnerability newVK)

/-- Outcome of `findFixedVersion`: the sentinel `errInPlaceImpossible` or a
propagated client error. -/
inductive FFVErr where
  | impossible
  | clientErr (n : Nat)
deriving DecidableEq, Repr

/-- Insertion of one element into a sorted list (insertion sort models the
unspecified sorting algorithm of `slices.SortFunc`: any sorted permutation). -/
def insertLe {α : Type} (le : α → α → Bool) (x : α) : List α → List α
  | [] => [x]
  | y :: ys => if le x y then x :: y :: ys else y :: insertLe le x ys

def sortBy {α : Type} (le : α → α → Bool) : List α → List α
  | [] => []
  | x :: xs => insertLe le x (sortBy le xs)

/-- The `findFixedVersion` sort comparator
`a.Semver().Compare(a.Version, b.Version)`, as a boolean `≤`. -/
def verLe (c : Collab) (a b : VersionKey) : Bool :=
  c.compare a.pkg.system a.version b.version ≤ 0

/-- The scan of `findFixedVersion` from the highest version down: skip
non-concrete entries, return the first satisfying version; a predicate
panic propagates. -/
def ffvScan (satisfy : VersionKey → Option Bool) :
    List VersionKey → Option (Except FFVErr VersionKey)
  | [] => some (Except.error FFVErr.impossible)
  | v :: rest =>
    if v.versionType = VersionType.concrete then
      match satisfy v with
      | none => none
      | some true => some (Except.ok v)
      | some false => ffvScan satisfy rest
    else ffvScan satisfy rest

/-- Models `findFixedVersion`: list the versions, sort ascending by the
package's comparison rule, scan from the end for a concrete satisfying
version, else the impossible sentinel. -/
def findFixedVersion (c : Collab) (pk : PackageKey) (satisfy : VersionKey → Option Bool) :
    Option (Except FFVErr VersionKey) :=
  match c.versions pk with
  | Except.error n => some (Except.error (FFVErr.clientErr n))
  | Except.ok vers => ffvScan satisfy (sortBy (verLe c) vers).reverse

/-- Find-or-create of the patch list: append the vulnerability to the patch
with the same `(Pkg, OrigVersion, NewVersion)` triple, else append a new
patch. -/
def addPatchTo : List InPlacePatch → VersionKey → String → ResolutionVuln → List InPlacePatch
  | [], vk, newV, vuln => [⟨vk.pkg, vk.version, newV, [vuln]⟩]
  | p :: rest, vk, newV, vuln =>
    if p.pkg = vk.pkg ∧ p.origVersion = vk.version ∧ p.newVersion = newV then
      { p with resolvedVulns := p.resolvedVulns ++ [vuln] } :: rest
    else p :: addPatchTo rest vk newV vuln

/-- Per-vulnerability step of the main loop of `ComputeInPlacePatches`. -/
def processVuln (c : Collab) (opts : RemediationOptions) (res : IPVN)
    (cmap : List (VersionKey × SemSet)) (vk : VersionKey) (acc : InPlaceResult)
    (vuln : ResolutionVuln) : Option (Except Nat InPlaceResult) :=
  if !opts.matchVuln vuln then some (Except.ok acc)
  else if opts.avoidPkgs.contains vk.pkg.name then
    some (Except.ok ⟨acc.patches, acc.unfixable ++ [vuln]⟩)
  else
    match findFixedVersion c vk.pkg (satisfyPred c opts res cmap vk vuln) with
    | none => none
    | some (Except.error FFVErr.impossible) =>
      some (Except.ok ⟨acc.patches, acc.unfixable ++ [vuln]⟩)
    | some (Except.error (FFVErr.clientErr n)) => some (Except.error n)
    | some (Except.ok newVK) =>
      some (Except.ok ⟨addPatchTo acc.patches vk newVK.version vuln, acc.unfixable⟩)

/-- Vulnerability loop for one version key. -/
def processVulnList (c : Collab) (opts : RemediationOptions) (res : IPVN)
    (cmap : List (VersionKey × SemSet)) (vk : VersionKey) :
    InPlaceResult → List ResolutionVuln → Option (Except Nat InPlaceResult)
  | acc, [] => some (Except.ok acc)
  | acc, vuln :: rest =>
    match processVuln c opts res cmap vk acc vuln with
    | none => none
    | some (Except.error n) => some (Except.error n)
    | some (Except.ok acc2) => processVulnList c opts res cmap vk acc2 rest

/-- Main loop of `ComputeInPlacePatches` over the `vkVulns` entries. -/
def processAll (c : Collab) (opts : RemediationOptions) (res : IPVN)
    (cmap : List (VersionKey × SemSet)) :
    InPlaceResult → List (VersionKey × List ResolutionVuln) → Option (Except Nat InPlaceResult)
  | acc, [] => some (Except.ok acc)
  | acc, (vk, vulns) :: rest =>
    match processVulnList c opts res cmap vk acc vulns with
    | none => none
    | some (Except.error n) => some (Except.error n)
    | some (Except.ok acc2) => processAll c opts res cmap acc2 rest

/-- Three-way comparison on naturals, as `cmp.Compare`. -/
def ncmp (a b : Nat) : Int := if a < b then -1 else if b < a then 1 else 0

/-- Lexicographic three-way comparison on character lists (Go compares
strings bytewise; on the ASCII data involved this coincides with
character-scalar order). -/
def strCmpL : List Char → List Char → Int
  | [], [] => 0
  | [], _ :: _ => -1
  | _ :: _, [] => 1
  | a :: as, b :: bs =>
    if a.toNat < b.toNat then -1 else if b.toNat < a.toNat then 1 else strCmpL as bs

/-- `cmp.Compare` on strings. -/
def scmp (a b : String) : Int := strCmpL a.data b.data

/-- The patch sort comparator of `ComputeInPlacePatches`: fixed-vulnerability
count descending, then package name ascending, then original version
ascending (string compare), then new version descending. -/
def patchCmp (a b : InPlacePatch) : Int :=
  if ncmp a.resolvedVulns.length b.resolvedVulns.length ≠ 0 then
    -(ncmp a.resolvedVulns.length b.resolvedVulns.length)
  else if scmp a.pkg.name b.pkg.name ≠ 0 then
    scmp a.pkg.name b.pkg.name
  else if scmp a.origVersion b.origVersion ≠ 0 then
    scmp a.origVersion b.origVersion
  else -(scmp a.newVersion b.newVersion)

def patchLe (a b : InPlacePatch) : Bool := patchCmp a b ≤ 0

/-- Models `ComputeInPlacePatches`: aggregate vulnerabilities, build the
dependent constraint sets, run the candidate search per vulnerability,
collect patches and unfixable vulnerabilities, and sort the patches.
`none` models a Go panic; `Except.error` a returned hard error (with the
empty `InPlaceResult{}` of the Go return discarded by construction). -/
def ComputeInPlacePatches (c : Collab) (g : Graph) (opts : RemediationOptions)
    (fuel : Nat) : Option (Except Nat InPlaceResult) :=
  match inPlaceVulnsNodes c g fuel with
  | Except.error n => some (Except.error n)
  | Except.ok res =>
    match computeConstraintMap c res.vkVulns with
    | none => none
    | some cmap =>
      match processAll c opts res cmap ⟨[], []⟩ res.vkVulns with
      | none => none
      | some (Except.error n) => some (Except.error n)
      | some (Except.ok result) =>
        some (Except.ok ⟨sortBy patchLe result.patches, result.unfixable⟩)

def pkA : PackageKey := ⟨0, "A"⟩

def pkB : PackageKey := ⟨0, "B"⟩

def vkA0 : VersionKey := ⟨pkA, "1.0.0", VersionType.concrete⟩

def vkA1 : VersionKey := ⟨pkA, "1.0.1", VersionType.concrete⟩

def vkRoot : VersionKey := ⟨⟨0, "root"⟩, "1.0.0", VersionType.concrete⟩

/-- A two-node graph: the root depends on A@1.0.0. -/
def gRA : Graph := ⟨[vkRoot, vkA0], [⟨0, 1, "^1.0.0"⟩]⟩

/-- Baseline collaborator: node 1 (A@1.0.0) has vulnerability VULN-1, the
client knows versions 1.0.0 and 1.0.1 of every package, requirement
fetching FAILS with error 7, and the semver oracles are permissive. -/
def cBase : Collab where
  findVulns := fun _ => Except.ok [[], ["VULN-1"]]
  versions := fun _ => Except.ok [vkA0, vkA1]
  requirements := fun _ => Except.error 7
  compare := fun _ a b => scmp a b
  difference := fun _ _ _ => Except.ok Diff.other
  parseConstraint := fun _ _ => Except.ok ()
  intersect := fun _ s t => Except.ok (s ++ t)
  setMatch := fun _ _ _ => Except.ok true
  constrMatch := fun _ _ _ => true
  isAffected := fun v vk => v == "VULN-1" && vk.version == "1.0.0"

def optsAll : RemediationOptions := ⟨true, [], fun _ => true⟩

/-- Like `cBase` but requirement fetching succeeds with no dependencies. -/
def cOk : Collab := { cBase with requirements := fun _ => Except.ok [] }

/-- Like `cBase` but version listing fails with error 9. -/
def cVersErr : Collab := { cBase with versions := fun _ => Except.error 9 }

/-- The problem chain of VULN-1 in `gRA`. -/
def chainRA : DependencyChain := ⟨gRA, [⟨0, 1, "^1.0.0"⟩]⟩

/-- The `ResolutionVuln` record for VULN-1 in `gRA`. -/
def rvVuln1 : ResolutionVuln := ⟨"VULN-1", [chainRA], false⟩

/-- The aggregate of `gRA` with VULN-1 on node 1. -/
def resRA : IPVN := ⟨[], [(vkA0, [rvVuln1])], [(vkA0, [1])]⟩

/-- Collaborator whose comparison oracle ranks all versions equal. -/
def cCmp0 : Collab := { cBase with compare := fun _ _ _ => 0 }

/-- The adjacent-pair ordering asserted by the patch sort: fixed-count
equal-or-greater, ties broken ascending by package name, then ascending by
original version (lexical string comparison), then descending by new
version. -/
def patchOrdAdj (a b : InPlacePatch) : Prop :=
  b.resolvedVulns.length ≤ a.resolvedVulns.length ∧
  (a.resolvedVulns.length = b.resolvedVulns.length → scmp a.pkg.name b.pkg.name ≤ 0) ∧
  (a.resolvedVulns.length = b.resolvedVulns.length → a.pkg.name = b.pkg.name →
    scmp a.origVersion b.origVersion ≤ 0) ∧
  (a.resolvedVulns.length = b.resolvedVulns.length → a.pkg.name = b.pkg.name →
    a.origVersion = b.origVersion → scmp b.newVersion a.newVersion ≤ 0)

def c6opts : RemediationOptions := ⟨true, ["A"], fun _ => false⟩

def c6wopts : RemediationOptions := ⟨true, ["A"], fun _ => true⟩

/-- A collaborator whose requirements response contains an optional-only
dependency on package B with no regular counterpart. -/
def cOptOnly : Collab :=
  { cBase with requirements := fun _ =>
      Except.ok [⟨⟨pkB, "^1", VersionType.requirement⟩, false, true⟩] }

/-- A collaborator whose requirements response lists B both as a regular
and as an optional dependency. -/
def cOptBoth : Collab :=
  { cBase with requirements := fun _ =>
      Except.ok [⟨⟨pkB, "^1", VersionType.requirement⟩, true, false⟩,
                 ⟨⟨pkB, "^1", VersionType.requirement⟩, false, true⟩] }

/-- A one-node graph whose root (node 0) is itself vulnerable. -/
def c9g : Graph := ⟨[vkRoot], []⟩

def c9collab : Collab := { cBase with findVulns := fun _ => Except.ok [["V0"]] }

theorem chainWF_seed (g : Graph) (node : Nat) (e : Edge) (hs : e.src ≠ e.dst)
    (ht : e.dst = node) : ChainWF node (DependencyChain.mk g [e]) := by
  refine ⟨by simp, by simpa using hs, by simp, by simp, by simp [ht], by simp⟩

theorem chainWF_extend (g : Graph) (node : Nat) (dc : DependencyChain)
    (h : ChainWF node dc) (last : Edge) (hlast : dc.edges.getLast? = some last)
    (hnz : last.src ≠ 0) (p : Edge) (hps : p.src ≠ p.dst) (hpt : p.dst = last.src)
    (hguard : p.dst ∉ dc.edges.map (fun e => e.dst)) :
    ChainWF node (DependencyChain.mk g (dc.edges ++ [p])) := by
  obtain ⟨hne, hsl, hch, hnd, hhd, hin⟩ := h
  refine ⟨by simp, ?_, ?_, ?_, ?_, ?_⟩
  · intro e he
    rcases List.mem_append.mp he with he | he
    · exact hsl e he
    · simpa [List.mem_singleton.mp he] using hps
  · rw [List.chain'_append]
    refine ⟨hch, List.chain'_singleton _, ?_⟩
    intro x hx y hy
    rw [hlast] at hx
    simp at hx hy
    rw [← hx, ← hy]
    exact hpt
  · rw [List.map_append]
    simp only [List.map_cons, List.map_nil]
    rw [List.nodup_append]
    refine ⟨hnd, List.nodup_singleton _, ?_⟩
    intro a ha
    simp only [List.mem_singleton]
    intro hc
    exact hguard (hc ▸ ha)
  · cases hedges : dc.edges with
    | nil => exact absurd hedges hne
    | cons x xs =>
      rw [hedges] at hhd
      simpa using hhd
  · have hdrop : (dc.edges ++ [p]).dropLast = dc.edges := by simp
    rw [hdrop]
    intro e he
    rcases List.eq_nil_or_concat dc.edges with h0 | ⟨l, b, hlb⟩
    · exact absurd h0 hne
    · rw [List.concat_eq_append] at hlb
      have hb : b = last := by
        rw [hlb] at hlast
        simpa using hlast
      rw [hlb] at he
      rcases List.mem_append.mp he with he | he
      · have hmem : e ∈ dc.edges.dropLast := by
          rw [hlb]
          simpa using he
        exact hin e hmem
      · rw [List.mem_singleton.mp he, hb]
        exact hnz

theorem chainVisits_eq_visitsL (dc : DependencyChain) : chainVisits dc = visitsL dc.edges := by
  rcases dc with ⟨g, edges⟩
  cases edges <;> rfl

/-- A linked edge list visits exactly its edge targets followed by the
source of its last edge. -/
theorem visitsL_eq (l : List Edge)
    (hch : List.Chain' (fun a b => b.dst = a.src) l)
    (last : Edge) (hlast : l.getLast? = some last) :
    visitsL l = l.map (fun e => e.dst) ++ [last.src] := by
  induction l generalizing last with
  | nil => simp at hlast
  | cons e rest ih =>
    cases rest with
    | nil =>
      simp at hlast
      simp [visitsL, hlast]
    | cons e2 rest2 =>
      have hch2 : List.Chain' (fun a b => b.dst = a.src) (e2 :: rest2) := hch.tail
      have hlink : e2.dst = e.src := (List.chain'_cons.mp hch).1
      have hlast2 : (e2 :: rest2).getLast? = some last := by
        simpa using hlast
      have hihr := ih hch2 last hlast2
      simp only [visitsL, List.map_cons] at hihr ⊢
      rw [List.cons_append, List.cons_append]
      rw [List.cons.injEq]
      refine ⟨rfl, ?_⟩
      rw [← hlink]
      exact hihr

theorem parentEdges_mem (g : Graph) (n : Nat) (e : Edge) (he : e ∈ parentEdges g n) :
    e ∈ g.edges ∧ e.src ≠ e.dst ∧ e.dst = n := by
  have := List.mem_filter.mp he
  rcases this with ⟨hmem, hcond⟩
  simp only [Bool.and_eq_true, Bool.not_eq_true', beq_eq_false_iff_ne, beq_iff_eq] at hcond
  exact ⟨hmem, hcond.1, hcond.2⟩

/-- Every chain emitted by the queue loop satisfies the queue invariant and
ends with an edge out of the root. -/
theorem computeChainsGo_sound (g : Graph) (node : Nat) :
    ∀ (fuel : Nat) (queue acc : List DependencyChain),
      (∀ c ∈ queue, ChainWF node c) →
      (∀ c ∈ acc, ChainWF node c ∧ ∃ last, c.edges.getLast? = some last ∧ last.src = 0) →
      ∀ c ∈ computeChainsGo g fuel queue acc,
        ChainWF node c ∧ ∃ last, c.edges.getLast? = some last ∧ last.src = 0 := by
  intro fuel
  induction fuel with
  | zero => intro queue acc hq ha c hc; exact ha c hc
  | succ n ih =>
    intro queue acc hq ha c hc
    cases queue with
    | nil => exact ha c hc
    | cons chain rest =>
      simp only [computeChainsGo] at hc
      cases hlast : chain.edges.getLast? with
      | none =>
        rw [hlast] at hc
        exact ih rest acc (fun c hc => hq c (List.mem_cons_of_mem _ hc)) ha c hc
      | some edge =>
        rw [hlast] at hc
        dsimp only at hc
        by_cases hroot : edge.src = 0
        · rw [if_pos hroot] at hc
          refine ih rest (acc ++ [chain]) (fun c hc => hq c (List.mem_cons_of_mem _ hc)) ?_ c hc
          intro c hc
          rcases List.mem_append.mp hc with hc | hc
          · exact ha c hc
          · rw [List.mem_singleton.mp hc]
            exact ⟨hq chain (List.mem_cons_self _ _), edge, hlast, hroot⟩
        · rw [if_neg hroot] at hc
          refine ih _ acc ?_ ha c hc
          intro c hc
          rcases List.mem_append.mp hc with hc | hc
          · exact hq c (List.mem_cons_of_mem _ hc)
          · rcases List.mem_map.mp hc with ⟨p, hp, hpeq⟩
            rcases List.mem_filter.mp hp with ⟨hpmem, hpguard⟩
            rcases parentEdges_mem g edge.src p hpmem with ⟨_, hps, hpt⟩
            have hguard : p.dst ∉ chain.edges.map (fun e => e.dst) := by
              simp only [Bool.not_eq_true', List.any_eq_false, beq_eq_false_iff_ne] at hpguard
              intro hmem
              rcases List.mem_map.mp hmem with ⟨e, he, hedst⟩
              exact hpguard e he (beq_iff_eq.mpr hedst)
            rw [← hpeq]
            exact chainWF_extend g node chain (hq chain (List.mem_cons_self _ _)) edge hlast
              hroot p hps hpt hguard

/-- In a linked edge list headed at a nonzero node whose non-final edges all
leave nonzero nodes, every edge target is nonzero. -/
theorem dst_ne_zero (l : List Edge) (node : Nat)
    (hch : List.Chain' (fun a b => b.dst = a.src) l)
    (hhd : l.head?.map (fun e => e.dst) = some node) (hnz : node ≠ 0)
    (hin : ∀ e ∈ l.dropLast, e.src ≠ 0) :
    ∀ e ∈ l, e.dst ≠ 0 := by
  induction l generalizing node with
  | nil => intro e he; simp at he
  | cons e rest ih =>
    intro x hx
    have hed : e.dst = node := by simpa using hhd
    rcases List.mem_cons.mp hx with hx | hx
    · rw [hx, hed]; exact hnz
    · cases rest with
      | nil => simp at hx
      | cons e2 rest2 =>
        have hlink : e2.dst = e.src := (List.chain'_cons.mp hch).1
        have hes : e.src ≠ 0 := by
          apply hin e
          simp [List.dropLast_cons₂]
        refine ih e2.dst hch.tail (by simp) (by rw [hlink]; exact hes) ?_ x hx
        intro y hy
        apply hin y
        rw [List.dropLast_cons₂]
        exact List.mem_cons_of_mem _ hy

/-- Soundness of one target's chain computation: every emitted chain is
self-loop free, has pairwise distinct edge targets, and — when the target
is not the root — never visits a node twice. -/
theorem computeChainsFor_sound (g : Graph) (fuel : Nat) (node : Nat) :
    ∀ c ∈ computeChainsFor g fuel node,
      (∀ e ∈ c.edges, e.src ≠ e.dst) ∧
      (c.edges.map (fun e => e.dst)).Nodup ∧
      (node ≠ 0 → (chainVisits c).Nodup) := by
  intro c hc
  have hseed : ∀ c ∈ (parentEdges g node).map (fun e => DependencyChain.mk g [e]),
      ChainWF node c := by
    intro c hc
    rcases List.mem_map.mp hc with ⟨e, he, heq⟩
    rcases parentEdges_mem g node e he with ⟨_, hs, ht⟩
    rw [← heq]
    exact chainWF_seed g node e hs ht
  have hsound := computeChainsGo_sound g node fuel _ [] hseed (by simp) c hc
  rcases hsound with ⟨⟨hne, hsl, hch, hnd, hhd, hin⟩, last, hlast, hroot⟩
  refine ⟨hsl, hnd, ?_⟩
  intro hnz
  rw [chainVisits_eq_visitsL, visitsL_eq c.edges hch last hlast]
  rw [List.nodup_append]
  refine ⟨hnd, List.nodup_singleton _, ?_⟩
  intro a ha
  simp only [List.mem_singleton]
  intro hc0
  rw [hc0, hroot] at ha
  rcases List.mem_map.mp ha with ⟨e, he, hedst⟩
  exact dst_ne_zero c.edges node hch hhd hnz hin e he hedst

/-- C7 (amended): every chain produced by `ComputeChains` contains no
self-loop edge and has pairwise distinct edge targets; when the target node
is not the root (node 0), no node is visited twice along the chain.  (A
chain computed for the root target itself may start and end at the root,
see the counterexample.) -/
theorem computeChains_cycle_guard (g : Graph) (targets : List Nat) (fuel i : Nat) :
    ∀ c ∈ (ComputeChains g targets fuel).getD i [],
      (∀ e ∈ c.edges, e.src ≠ e.dst) ∧
      (c.edges.map (fun e => e.dst)).Nodup ∧
      (targets.getD i 0 ≠ 0 → (chainVisits c).Nodup) := by
  intro c hc
  rw [List.getD_eq_getElem?_getD, ComputeChains, List.getElem?_map] at hc
  rw [List.getD_eq_getElem?_getD]
  cases ht : targets[i]? with
  | none => rw [ht] at hc; simp at hc
  | some t =>
    rw [ht] at hc
    simp only [Option.map_some', Option.getD_some] at hc
    exact computeChainsFor_sound g fuel t c hc

/-- C7 counterexample: with the root node 0 as a target and a dependency
cycle through the root, `ComputeChains` emits a chain that visits node 0
twice (the claim states no chain ever visits a node twice). -/
theorem computeChains_root_revisit_cex :
    c7chain ∈ (ComputeChains c7g [0] 10).getD 0 [] ∧
    chainVisits c7chain = [0, 1, 0] ∧ ¬ (chainVisits c7chain).Nodup := by
  refine ⟨by decide, by decide, by decide⟩

/-- C7 witness: the amended theorem applied to a concrete non-root target. -/
theorem computeChains_cycle_guard_witness :
    (chainVisits ⟨c7wg, [⟨0, 1, "r"⟩]⟩).Nodup :=
  (computeChains_cycle_guard c7wg [1] 10 0 ⟨c7wg, [⟨0, 1, "r"⟩]⟩ (by decide)).2.2 (by decide)

/-- C2 (amended): for a nonempty chain, `EndDependency` returns the target
version and requirement of the edge at index 0 — the edge nearest the
vulnerable node — and `DirectDependency` returns the target version and
requirement of the last edge — the edge adjacent to the root.  (The claim
has the two views swapped.) -/
theorem dependencyChain_views (dc : DependencyChain) (e last : Edge) (es : List Edge)
    (h : dc.edges = e :: es) (hl : dc.edges.getLast? = some last) :
    dc.EndDependency = (dc.graph.nodes.get? e.dst).map (fun vk => (vk, e.requirement)) ∧
    dc.DirectDependency = (dc.graph.nodes.get? last.dst).map (fun vk => (vk, last.requirement)) := by
  constructor
  · rw [DependencyChain.EndDependency, h]
    rfl
  · rw [DependencyChain.DirectDependency, hl]

/-- C2 counterexample: on a two-edge chain (edge 0 nearest the vulnerable
node B, last edge adjacent to the root), `DirectDependency` does not return
the nearest edge's target (B) but the root-adjacent edge's target (A), and
`EndDependency` does not return the root-adjacent edge's target but the
nearest edge's target. -/
theorem dependencyChain_views_cex :
    c2chain.edges.head? = some ⟨1, 2, "reqB"⟩ ∧
    c2chain.graph.nodes.get? 2 = some c2vkB ∧
    c2chain.DirectDependency = some (c2vkA, "reqA") ∧
    c2chain.DirectDependency ≠ some (c2vkB, "reqB") ∧
    c2chain.EndDependency = some (c2vkB, "reqB") ∧
    c2chain.EndDependency ≠ some (c2vkA, "reqA") := by
  refine ⟨rfl, rfl, rfl, by decide, rfl, by decide⟩

/-- C2 witness: the amended theorem applied to the concrete chain. -/
theorem dependencyChain_views_witness :
    c2chain.EndDependency = (c2chain.graph.nodes.get? 2).map (fun vk => (vk, "reqB")) ∧
    c2chain.DirectDependency = (c2chain.graph.nodes.get? 1).map (fun vk => (vk, "reqA")) :=
  dependencyChain_views c2chain ⟨1, 2, "reqB"⟩ ⟨0, 1, "reqA"⟩ [⟨0, 1, "reqA"⟩] rfl (by decide)

theorem mergeResVuln_devFalse (es : List ResolutionVuln) (rv : ResolutionVuln)
    (hes : ∀ v ∈ es, v.devOnly = false) (hrv : rv.devOnly = false) :
    ∀ v ∈ mergeResVuln es rv, v.devOnly = false := by
  induction es with
  | nil => intro v hv; simp [mergeResVuln] at hv; rw [hv]; exact hrv
  | cons e rest ih =>
    intro v hv
    rw [mergeResVuln] at hv
    by_cases heq : e.vulnerability = rv.vulnerability
    · rw [if_pos heq] at hv
      rcases List.mem_cons.mp hv with hv | hv
      · rw [hv]
        simp [hrv]
      · exact hes v (List.mem_cons_of_mem _ hv)
    · rw [if_neg heq] at hv
      rcases List.mem_cons.mp hv with hv | hv
      · rw [hv]; exact hes e (List.mem_cons_self _ _)
      · exact ih (fun v hv => hes v (List.mem_cons_of_mem _ hv)) v hv

theorem vkVulnsAdd_devFalse (m : List (VersionKey × List ResolutionVuln))
    (vk : VersionKey) (rv : ResolutionVuln)
    (hm : ∀ e ∈ m, ∀ v ∈ e.2, v.devOnly = false) (hrv : rv.devOnly = false) :
    ∀ e ∈ vkVulnsAdd m vk rv, ∀ v ∈ e.2, v.devOnly = false := by
  induction m with
  | nil =>
    intro e he v hv
    simp [vkVulnsAdd] at he
    rw [he] at hv
    simp at hv
    rw [hv]; exact hrv
  | cons p rest ih =>
    intro e he v hv
    rw [vkVulnsAdd] at he
    by_cases heq : p.1 = vk
    · rw [if_pos heq] at he
      rcases List.mem_cons.mp he with he | he
      · rw [he] at hv
        exact mergeResVuln_devFalse p.2 rv (hm p (by simp)) hrv v hv
      · exact hm e (List.mem_cons_of_mem _ he) v hv
    · rw [if_neg heq] at he
      rcases List.mem_cons.mp he with he | he
      · rw [he] at hv; exact hm p (by simp) v hv
      · exact ih (fun e he => hm e (List.mem_cons_of_mem _ he)) e he v hv

theorem ipvnAddVulns_devFalse (vk : VersionKey) (chains : List DependencyChain)
    (ids : List String) (m : List (VersionKey × List ResolutionVuln))
    (hm : ∀ e ∈ m, ∀ v ∈ e.2, v.devOnly = false) :
    ∀ e ∈ ipvnAddVulns vk chains m ids, ∀ v ∈ e.2, v.devOnly = false := by
  induction ids generalizing m with
  | nil => simpa [ipvnAddVulns] using hm
  | cons i rest ih =>
    rw [ipvnAddVulns]
    exact ih _ (vkVulnsAdd_devFalse m vk ⟨i, chains, false⟩ hm rfl)

theorem ipvnNodesLoop_devFalse (g : Graph) (nodeVulns : List (List String))
    (nodeChains : List (List DependencyChain)) (l : List (Nat × Nat)) (acc : IPVN)
    (hacc : ∀ e ∈ acc.vkVulns, ∀ v ∈ e.2, v.devOnly = false) :
    ∀ e ∈ (ipvnNodesLoop g nodeVulns nodeChains l acc).vkVulns, ∀ v ∈ e.2,
      v.devOnly = false := by
  induction l generalizing acc with
  | nil => simpa [ipvnNodesLoop] using hacc
  | cons p rest ih =>
    rcases p with ⟨i, nID⟩
    rw [ipvnNodesLoop]
    exact ih _ (ipvnAddVulns_devFalse _ _ _ _ hacc)

/-- C10: every `ResolutionVuln` in the `vkVulns` aggregate produced by
`inPlaceVulnsNodes` has `DevOnly = false`: the flag is set to false for each
occurrence and merge combines it by AND. -/
theorem inPlaceVulnsNodes_devOnly_false (c : Collab) (g : Graph) (fuel : Nat)
    (res : IPVN) (hres : inPlaceVulnsNodes c g fuel = Except.ok res) :
    ∀ e ∈ res.vkVulns, ∀ v ∈ e.2, v.devOnly = false := by
  rw [inPlaceVulnsNodes] at hres
  cases hfv : c.findVulns g with
  | error n => rw [hfv] at hres; exact absurd hres (by simp)
  | ok nodeVulns =>
    rw [hfv] at hres
    simp only [Except.ok.injEq] at hres
    rw [← hres]
    exact ipvnNodesLoop_devFalse _ _ _ _ _ (by simp)

/-- C10 witness: the theorem applied to the concrete aggregation run. -/
theorem inPlaceVulnsNodes_devOnly_false_witness : rvVuln1.devOnly = false :=
  inPlaceVulnsNodes_devOnly_false cBase gRA 10 resRA rfl (vkA0, [rvVuln1])
    (by decide) rvVuln1 (by decide)

theorem insertLe_perm {α : Type} (le : α → α → Bool) (x : α) (l : List α) :
    (insertLe le x l).Perm (x :: l) := by
  induction l with
  | nil => exact List.Perm.refl _
  | cons y ys ih =>
    rw [insertLe]
    by_cases h : le x y = true
    · rw [if_pos h]
    · rw [if_neg h]
      exact (List.Perm.cons y ih).trans (List.Perm.swap x y ys)

theorem sortBy_perm {α : Type} (le : α → α → Bool) (l : List α) :
    (sortBy le l).Perm l := by
  induction l with
  | nil => exact List.Perm.refl _
  | cons x xs ih =>
    rw [sortBy]
    exact (insertLe_perm le x (sortBy le xs)).trans (List.Perm.cons x ih)

theorem insertLe_pairwise {α : Type} (le : α → α → Bool)
    (htot : ∀ a b, le a b = true ∨ le b a = true)
    (htr : ∀ a b d, le a b = true → le b d = true → le a d = true)
    (x : α) (l : List α) (h : l.Pairwise (fun a b => le a b = true)) :
    (insertLe le x l).Pairwise (fun a b => le a b = true) := by
  induction l with
  | nil => simp [insertLe]
  | cons y ys ih =>
    rcases List.pairwise_cons.mp h with ⟨h1, h2⟩
    rw [insertLe]
    by_cases hxy : le x y = true
    · rw [if_pos hxy]
      refine List.pairwise_cons.mpr ⟨?_, h⟩
      intro u hu
      rcases List.mem_cons.mp hu with hu | hu
      · rw [hu]; exact hxy
      · exact htr x y u hxy (h1 u hu)
    · rw [if_neg hxy]
      have hyx : le y x = true := by
        rcases htot x y with hc | hc
        · exact absurd hc hxy
        · exact hc
      refine List.pairwise_cons.mpr ⟨?_, ih h2⟩
      intro u hu
      rcases List.mem_cons.mp ((insertLe_perm le x ys).mem_iff.mp hu) with hu | hu
      · rw [hu]; exact hyx
      · exact h1 u hu

theorem sortBy_pairwise {α : Type} (le : α → α → Bool)
    (htot : ∀ a b, le a b = true ∨ le b a = true)
    (htr : ∀ a b d, le a b = true → le b d = true → le a d = true)
    (l : List α) : (sortBy le l).Pairwise (fun a b => le a b = true) := by
  induction l with
  | nil => simp [sortBy]
  | cons x xs ih => exact insertLe_pairwise le htot htr x _ ih

theorem insertLe_chain' {α : Type} (le : α → α → Bool)
    (htot : ∀ a b, le a b = true ∨ le b a = true)
    (x : α) (l : List α) (h : l.Chain' (fun a b => le a b = true)) :
    (insertLe le x l).Chain' (fun a b => le a b = true) := by
  induction l with
  | nil => simp [insertLe]
  | cons y ys ih =>
    rw [insertLe]
    by_cases hxy : le x y = true
    · rw [if_pos hxy]
      exact List.chain'_cons.mpr ⟨hxy, h⟩
    · rw [if_neg hxy]
      have hyx : le y x = true := by
        rcases htot x y with hc | hc
        · exact absurd hc hxy
        · exact hc
      refine List.chain'_cons'.mpr ⟨?_, ih h.tail⟩
      intro z hz
      cases ys with
      | nil =>
        simp [insertLe] at hz
        rw [← hz]; exact hyx
      | cons w ws =>
        rw [insertLe] at hz
        by_cases hxw : le x w = true
        · rw [if_pos hxw] at hz
          simp at hz
          rw [← hz]; exact hyx
        · rw [if_neg hxw] at hz
          simp at hz
          rw [← hz]
          exact (List.chain'_cons.mp h).1

theorem sortBy_chain' {α : Type} (le : α → α → Bool)
    (htot : ∀ a b, le a b = true ∨ le b a = true)
    (l : List α) : (sortBy le l).Chain' (fun a b => le a b = true) := by
  induction l with
  | nil => simp [sortBy]
  | cons x xs ih => exact insertLe_chain' le htot x _ ih

theorem ffvScan_pure (c : Collab) (p : VersionKey → Bool) (rl : List VersionKey)
    (hpw : rl.Pairwise (fun a b => verLe c b a = true))
    (hrefl : ∀ a, verLe c a a = true) :
    match ffvScan (fun vk => some (p vk)) rl with
    | some (Except.ok r) => r ∈ rl ∧ r.versionType = VersionType.concrete ∧ p r = true ∧
        ∀ v ∈ rl, v.versionType = VersionType.concrete → p v = true → verLe c v r = true
    | some (Except.error FFVErr.impossible) =>
        ∀ v ∈ rl, v.versionType = VersionType.concrete → p v = false
    | _ => False := by
  induction rl with
  | nil =>
    simp [ffvScan]
  | cons v rest ih =>
    rcases List.pairwise_cons.mp hpw with ⟨h1, h2⟩
    have ihr := ih h2
    rw [ffvScan]
    by_cases hvc : v.versionType = VersionType.concrete
    · rw [if_pos hvc]
      cases hp : p v with
      | true =>
        refine ⟨List.mem_cons_self _ _, hvc, hp, ?_⟩
        intro u hu huc hup
        rcases List.mem_cons.mp hu with hu | hu
        · rw [hu]; exact hrefl v
        · exact h1 u hu
      | false =>
        cases hscan : ffvScan (fun vk => some (p vk)) rest with
        | none => rw [hscan] at ihr; exact ihr
        | some r =>
          rw [hscan] at ihr
          cases r with
          | ok r =>
            rcases ihr with ⟨hmem, hconc, hpr, hmax⟩
            refine ⟨List.mem_cons_of_mem _ hmem, hconc, hpr, ?_⟩
            intro u hu huc hup
            rcases List.mem_cons.mp hu with hu | hu
            · rw [hu] at hup
              rw [hup] at hp
              exact absurd hp (by simp)
            · exact hmax u hu huc hup
          | error e =>
            cases e with
            | impossible =>
              intro u hu huc
              rcases List.mem_cons.mp hu with hu | hu
              · rw [hu]; exact hp
              · exact ihr u hu huc
            | clientErr n => exact ihr
    · rw [if_neg hvc]
      cases hscan : ffvScan (fun vk => some (p vk)) rest with
      | none => rw [hscan] at ihr; exact ihr
      | some r =>
        rw [hscan] at ihr
        cases r with
        | ok r =>
          rcases ihr with ⟨hmem, hconc, hpr, hmax⟩
          refine ⟨List.mem_cons_of_mem _ hmem, hconc, hpr, ?_⟩
          intro u hu huc hup
          rcases List.mem_cons.mp hu with hu | hu
          · rw [hu] at huc; exact absurd huc hvc
          · exact hmax u hu huc hup
        | error e =>
          cases e with
          | impossible =>
            intro u hu huc
            rcases List.mem_cons.mp hu with hu | hu
            · rw [hu] at huc; exact absurd huc hvc
            · exact ihr u hu huc
          | clientErr n => exact ihr

/-- C3: for every package and pure predicate, `findFixedVersion` returns a
Concrete version from the client's list that satisfies the predicate and is
highest among all Concrete satisfying versions under the package's own
comparison rule (assumed total and transitive); when no Concrete version
satisfies the predicate it returns the distinguished impossible error. -/
theorem findFixedVersion_highest (c : Collab) (pk : PackageKey)
    (vers : List VersionKey) (p : VersionKey → Bool)
    (hv : c.versions pk = Except.ok vers)
    (htot : ∀ a b, verLe c a b = true ∨ verLe c b a = true)
    (htr : ∀ a b d, verLe c a b = true → verLe c b d = true → verLe c a d = true) :
    match findFixedVersion c pk (fun vk => some (p vk)) with
    | some (Except.ok r) => r ∈ vers ∧ r.versionType = VersionType.concrete ∧ p r = true ∧
        ∀ v ∈ vers, v.versionType = VersionType.concrete → p v = true → verLe c v r = true
    | some (Except.error FFVErr.impossible) =>
        ∀ v ∈ vers, v.versionType = VersionType.concrete → p v = false
    | _ => False := by
  rw [findFixedVersion, hv]
  dsimp only
  have hperm : ((sortBy (verLe c) vers).reverse).Perm vers :=
    ((sortBy (verLe c) vers).reverse_perm).trans (sortBy_perm (verLe c) vers)
  have hpw : ((sortBy (verLe c) vers).reverse).Pairwise (fun a b => verLe c b a = true) := by
    rw [List.pairwise_reverse]
    exact sortBy_pairwise (verLe c) htot htr vers
  have hrefl : ∀ a, verLe c a a = true := by
    intro a
    rcases htot a a with h | h <;> exact h
  have hspec := ffvScan_pure c p ((sortBy (verLe c) vers).reverse) hpw hrefl
  cases hscan : ffvScan (fun vk => some (p vk)) ((sortBy (verLe c) vers).reverse) with
  | none => rw [hscan] at hspec; exact hspec
  | some r =>
    rw [hscan] at hspec
    cases r with
    | ok r =>
      rcases hspec with ⟨hmem, hconc, hpr, hmax⟩
      exact ⟨hperm.mem_iff.mp hmem, hconc, hpr,
        fun v hv2 hc2 hp2 => hmax v (hperm.mem_iff.mpr hv2) hc2 hp2⟩
    | error e =>
      cases e with
      | impossible => exact fun v hv2 hc2 => hspec v (hperm.mem_iff.mpr hv2) hc2
      | clientErr n => exact hspec

/-- C3 witness: the theorem applied to a concrete client and predicate. -/
theorem findFixedVersion_highest_witness :
    vkA1 ∈ [vkA0, vkA1] ∧ vkA1.versionType = VersionType.concrete ∧
      (vkA1.version == "1.0.1") = true ∧
      ∀ v ∈ [vkA0, vkA1], v.versionType = VersionType.concrete →
        (v.version == "1.0.1") = true → verLe cCmp0 v vkA1 = true :=
  findFixedVersion_highest cCmp0 pkA [vkA0, vkA1] (fun vk => vk.version == "1.0.1")
    rfl (fun a b => Or.inl rfl) (fun a b d h1 h2 => rfl)

theorem addPatchTo_triple_sub (l : List InPlacePatch) (vk : VersionKey) (newV : String)
    (vuln : ResolutionVuln) :
    ∀ q ∈ addPatchTo l vk newV vuln,
      dpTriple q ∈ l.map dpTriple ∨ dpTriple q = (vk.pkg, vk.version, newV) := by
  induction l with
  | nil =>
    intro q hq
    simp [addPatchTo] at hq
    right
    rw [hq]
    rfl
  | cons p rest ih =>
    intro q hq
    rw [addPatchTo] at hq
    by_cases hc : p.pkg = vk.pkg ∧ p.origVersion = vk.version ∧ p.newVersion = newV
    · rw [if_pos hc] at hq
      rcases List.mem_cons.mp hq with hq | hq
      · left
        rw [hq]
        simp [dpTriple]
      · left
        exact List.mem_cons_of_mem _ (List.mem_map_of_mem dpTriple hq)
    · rw [if_neg hc] at hq
      rcases List.mem_cons.mp hq with hq | hq
      · left; rw [hq]; simp
      · rcases ih q hq with h | h
        · left; exact List.mem_cons_of_mem _ h
        · right; exact h

theorem addPatchTo_pkg_sub (l : List InPlacePatch) (vk : VersionKey) (newV : String)
    (vuln : ResolutionVuln) :
    ∀ q ∈ addPatchTo l vk newV vuln,
      q.pkg ∈ l.map (fun p => p.pkg) ∨ q.pkg = vk.pkg := by
  intro q hq
  rcases addPatchTo_triple_sub l vk newV vuln q hq with h | h
  · rcases List.mem_map.mp h with ⟨p, hp, hpe⟩
    left
    have : q.pkg = p.pkg := by
      have := congrArg Prod.fst hpe
      simpa [dpTriple] using this.symm
    rw [this]
    exact List.mem_map_of_mem _ hp
  · right
    have := congrArg Prod.fst h
    simpa [dpTriple] using this

theorem addPatchTo_nodup (l : List InPlacePatch) (vk : VersionKey) (newV : String)
    (vuln : ResolutionVuln) (h : (l.map dpTriple).Nodup) :
    ((addPatchTo l vk newV vuln).map dpTriple).Nodup := by
  induction l with
  | nil => simp [addPatchTo]
  | cons p rest ih =>
    rw [List.map_cons, List.nodup_cons] at h
    rcases h with ⟨hp, hrest⟩
    rw [addPatchTo]
    by_cases hc : p.pkg = vk.pkg ∧ p.origVersion = vk.version ∧ p.newVersion = newV
    · rw [if_pos hc]
      rw [List.map_cons, List.nodup_cons]
      refine ⟨?_, hrest⟩
      simpa [dpTriple] using hp
    · rw [if_neg hc]
      rw [List.map_cons, List.nodup_cons]
      refine ⟨?_, ih hrest⟩
      intro hmem
      rcases List.mem_map.mp hmem with ⟨q, hq, hqe⟩
      rcases addPatchTo_triple_sub rest vk newV vuln q hq with hs | hs
      · exact hp (hqe ▸ hs)
      · rw [hqe] at hs
        apply hc
      -- dpTriple p = (vk.pkg, vk.version, newV) contradicts the if guard
        refine ⟨congrArg (fun t => t.1) hs, congrArg (fun t => t.2.1) hs,
          congrArg (fun t => t.2.2) hs⟩

theorem addPatchTo_len_found (l : List InPlacePatch) (vk : VersionKey) (newV : String)
    (vuln : ResolutionVuln) (h : ∃ p ∈ l, dpTriple p = (vk.pkg, vk.version, newV)) :
    (addPatchTo l vk newV vuln).length = l.length := by
  induction l with
  | nil => rcases h with ⟨p, hp, _⟩; simp at hp
  | cons p rest ih =>
    rw [addPatchTo]
    by_cases hc : p.pkg = vk.pkg ∧ p.origVersion = vk.version ∧ p.newVersion = newV
    · rw [if_pos hc]; simp
    · rw [if_neg hc]
      rcases h with ⟨q, hq, hqe⟩
      rcases List.mem_cons.mp hq with hq | hq
      · exfalso
        apply hc
        rw [← hq]
        exact ⟨congrArg (fun t => t.1) hqe, congrArg (fun t => t.2.1) hqe,
          congrArg (fun t => t.2.2) hqe⟩
      · simp only [List.length_cons]
        rw [ih ⟨q, hq, hqe⟩]

theorem processVuln_ok (c : Collab) (opts : RemediationOptions) (res : IPVN)
    (cmap : List (VersionKey × SemSet)) (vk : VersionKey) (acc : InPlaceResult)
    (vuln : ResolutionVuln) (acc2 : InPlaceResult)
    (h : processVuln c opts res cmap vk acc vuln = some (Except.ok acc2)) :
    acc2 = acc ∨
    acc2 = ⟨acc.patches, acc.unfixable ++ [vuln]⟩ ∨
    ∃ newV, acc2 = ⟨addPatchTo acc.patches vk newV vuln, acc.unfixable⟩ ∧
      opts.avoidPkgs.contains vk.pkg.name = false := by
  rw [processVuln] at h
  by_cases hm : opts.matchVuln vuln = true
  · rw [hm] at h
    simp only [Bool.not_true, if_neg (by decide : ¬ (false = true))] at h
    by_cases ha : opts.avoidPkgs.contains vk.pkg.name = true
    · rw [if_pos ha] at h
      simp only [Option.some.injEq, Except.ok.injEq] at h
      right; left
      exact h.symm
    · rw [if_neg ha] at h
      cases hf : findFixedVersion c vk.pkg (satisfyPred c opts res cmap vk vuln) with
      | none => rw [hf] at h; exact absurd h (by simp)
      | some r =>
        rw [hf] at h
        cases r with
        | ok newVK =>
          simp only [Option.some.injEq, Except.ok.injEq] at h
          right; right
          exact ⟨newVK.version, h.symm, Bool.not_eq_true _ ▸ ha⟩
        | error e =>
          cases e with
          | impossible =>
            simp only [Option.some.injEq, Except.ok.injEq] at h
            right; left
            exact h.symm
          | clientErr n => simp at h
  · have hm2 : opts.matchVuln vuln = false := Bool.not_eq_true _ ▸ hm
    rw [hm2] at h
    simp at h
    left
    exact h.symm

theorem processVuln_avoid (c : Collab) (opts : RemediationOptions) (res : IPVN)
    (cmap : List (VersionKey × SemSet)) (vk : VersionKey) (acc : InPlaceResult)
    (vuln : ResolutionVuln) (hm : opts.matchVuln vuln = true)
    (ha : opts.avoidPkgs.contains vk.pkg.name = true) :
    processVuln c opts res cmap vk acc vuln =
      some (Except.ok ⟨acc.patches, acc.unfixable ++ [vuln]⟩) := by
  rw [processVuln, hm]
  simp only [Bool.not_true, if_neg (by decide : ¬ (false = true))]
  rw [if_pos ha]

theorem processVuln_skip (c : Collab) (opts : RemediationOptions) (res : IPVN)
    (cmap : List (VersionKey × SemSet)) (vk : VersionKey) (acc : InPlaceResult)
    (vuln : ResolutionVuln) (hm : opts.matchVuln vuln = false) :
    processVuln c opts res cmap vk acc vuln = some (Except.ok acc) := by
  rw [processVuln, hm]
  simp

theorem processVulnList_ok (c : Collab) (opts : RemediationOptions) (res : IPVN)
    (cmap : List (VersionKey × SemSet)) (vk : VersionKey) (vulns : List ResolutionVuln)
    (acc acc2 : InPlaceResult)
    (h : processVulnList c opts res cmap vk acc vulns = some (Except.ok acc2)) :
    ((acc.patches.map dpTriple).Nodup → (acc2.patches.map dpTriple).Nodup) ∧
    (∀ x ∈ acc.unfixable, x ∈ acc2.unfixable) ∧
    (∀ q ∈ acc2.patches, q.pkg ∈ acc.patches.map (fun p => p.pkg) ∨
      opts.avoidPkgs.contains q.pkg.name = false) := by
  induction vulns generalizing acc with
  | nil =>
    rw [processVulnList] at h
    simp only [Option.some.injEq, Except.ok.injEq] at h
    rw [← h]
    exact ⟨id, fun x hx => hx, fun q hq => Or.inl (List.mem_map_of_mem _ hq)⟩
  | cons v rest ih =>
    rw [processVulnList] at h
    cases hs : processVuln c opts res cmap vk acc v with
    | none => rw [hs] at h; exact absurd h (by simp)
    | some r =>
      rw [hs] at h
      cases r with
      | error n => exact absurd h (by simp)
      | ok acc1 =>
        rcases ih acc1 h with ⟨ihn, ihu, ihp⟩
        rcases processVuln_ok c opts res cmap vk acc v acc1 hs with h1 | h1 | ⟨newV, h1, hav⟩
        · rw [h1] at ihn ihu ihp
          exact ⟨ihn, ihu, ihp⟩
        · refine ⟨?_, ?_, ?_⟩
          · intro hnd
            apply ihn
            rw [h1]
            exact hnd
          · intro x hx
            apply ihu
            rw [h1]
            exact List.mem_append_left _ hx
          · intro q hq
            rcases ihp q hq with hq2 | hq2
            · rw [h1] at hq2
              exact Or.inl hq2
            · exact Or.inr hq2
        · refine ⟨?_, ?_, ?_⟩
          · intro hnd
            apply ihn
            rw [h1]
            exact addPatchTo_nodup acc.patches vk newV v hnd
          · intro x hx
            apply ihu
            rw [h1]
            exact hx
          · intro q hq
            rcases ihp q hq with hq2 | hq2
            · rw [h1] at hq2
              rcases List.mem_map.mp hq2 with ⟨q3, hq3, hq3e⟩
              rcases addPatchTo_pkg_sub acc.patches vk newV v q3 hq3 with hs2 | hs2
              · left
                rw [← hq3e]
                exact hs2
              · right
                rw [← hq3e, hs2]
                exact hav
            · exact Or.inr hq2

theorem processAll_ok (c : Collab) (opts : RemediationOptions) (res : IPVN)
    (cmap : List (VersionKey × SemSet)) (l : List (VersionKey × List ResolutionVuln))
    (acc acc2 : InPlaceResult)
    (h : processAll c opts res cmap acc l = some (Except.ok acc2)) :
    ((acc.patches.map dpTriple).Nodup → (acc2.patches.map dpTriple).Nodup) ∧
    (∀ x ∈ acc.unfixable, x ∈ acc2.unfixable) ∧
    (∀ q ∈ acc2.patches, q.pkg ∈ acc.patches.map (fun p => p.pkg) ∨
      opts.avoidPkgs.contains q.pkg.name = false) := by
  induction l generalizing acc with
  | nil =>
    rw [processAll] at h
    simp only [Option.some.injEq, Except.ok.injEq] at h
    rw [← h]
    exact ⟨id, fun x hx => hx, fun q hq => Or.inl (List.mem_map_of_mem _ hq)⟩
  | cons p rest ih =>
    rcases p with ⟨vk, vulns⟩
    rw [processAll] at h
    cases hs : processVulnList c opts res cmap vk acc vulns with
    | none => rw [hs] at h; exact absurd h (by simp)
    | some r =>
      rw [hs] at h
      cases r with
      | error n => exact absurd h (by simp)
      | ok acc1 =>
        rcases ih acc1 h with ⟨ihn, ihu, ihp⟩
        rcases processVulnList_ok c opts res cmap vk vulns acc acc1 hs with ⟨h1n, h1u, h1p⟩
        refine ⟨fun hnd => ihn (h1n hnd), fun x hx => ihu x (h1u x hx), ?_⟩
        intro q hq
        rcases ihp q hq with hq2 | hq2
        · rcases List.mem_map.mp hq2 with ⟨q3, hq3, hq3e⟩
          rcases h1p q3 hq3 with hs2 | hs2
          · left
            rw [← hq3e]
            exact hs2
          · right
            rw [← hq3e]
            exact hs2
        · exact Or.inr hq2

theorem processVulnList_avoid (c : Collab) (opts : RemediationOptions) (res : IPVN)
    (cmap : List (VersionKey × SemSet)) (vk : VersionKey) (vulns : List ResolutionVuln)
    (acc acc2 : InPlaceResult) (ha : opts.avoidPkgs.contains vk.pkg.name = true)
    (h : processVulnList c opts res cmap vk acc vulns = some (Except.ok acc2)) :
    ∀ v ∈ vulns, opts.matchVuln v = true → v ∈ acc2.unfixable := by
  induction vulns generalizing acc with
  | nil => intro v hv; simp at hv
  | cons w rest ih =>
    intro v hv hm
    rw [processVulnList] at h
    rcases List.mem_cons.mp hv with hv | hv
    · rw [hv] at hm ⊢
      rw [processVuln_avoid c opts res cmap vk acc w hm ha] at h
      have hmono := (processVulnList_ok c opts res cmap vk rest _ acc2 h).2.1
      exact hmono w (List.mem_append_right _ (List.mem_singleton_self w))
    · cases hwm : opts.matchVuln w with
      | true =>
        rw [processVuln_avoid c opts res cmap vk acc w hwm ha] at h
        exact ih _ h v hv hm
      | false =>
        rw [processVuln_skip c opts res cmap vk acc w hwm] at h
        exact ih _ h v hv hm

theorem processAll_avoid (c : Collab) (opts : RemediationOptions) (res : IPVN)
    (cmap : List (VersionKey × SemSet)) (l : List (VersionKey × List ResolutionVuln))
    (acc acc2 : InPlaceResult) (vk : VersionKey) (vl : List ResolutionVuln)
    (hmem : (vk, vl) ∈ l) (ha : opts.avoidPkgs.contains vk.pkg.name = true)
    (h : processAll c opts res cmap acc l = some (Except.ok acc2)) :
    ∀ v ∈ vl, opts.matchVuln v = true → v ∈ acc2.unfixable := by
  induction l generalizing acc with
  | nil => simp at hmem
  | cons p rest ih =>
    rcases p with ⟨vk2, vl2⟩
    rw [processAll] at h
    cases hs : processVulnList c opts res cmap vk2 acc vl2 with
    | none => rw [hs] at h; exact absurd h (by simp)
    | some r =>
      rw [hs] at h
      cases r with
      | error n => exact absurd h (by simp)
      | ok acc1 =>
        rcases List.mem_cons.mp hmem with hm2 | hm2
        · have hvk : vk2 = vk := congrArg Prod.fst hm2.symm
          have hvl : vl2 = vl := congrArg Prod.snd hm2.symm
          rw [hvk, hvl] at hs
          intro v hv hmv
          have hin1 := processVulnList_avoid c opts res cmap vk vl acc acc1 ha hs v hv hmv
          exact (processAll_ok c opts res cmap rest acc1 acc2 h).2.1 v hin1
        · exact ih acc1 hm2 h

theorem ncmp_eq_zero (x y : Nat) : ncmp x y = 0 ↔ x = y := by
  rw [ncmp]
  split_ifs <;> simp <;> omega

theorem ncmp_swap (x y : Nat) : ncmp y x = -(ncmp x y) := by
  rw [ncmp, ncmp]
  split_ifs <;> omega

theorem strCmpL_refl (l : List Char) : strCmpL l l = 0 := by
  induction l with
  | nil => rfl
  | cons a as ih =>
    rw [strCmpL]
    rw [if_neg (by omega), if_neg (by omega)]
    exact ih

theorem strCmpL_swap (l m : List Char) : strCmpL m l = -(strCmpL l m) := by
  induction l generalizing m with
  | nil =>
    cases m with
    | nil => rfl
    | cons b bs => rfl
  | cons a as ih =>
    cases m with
    | nil => rfl
    | cons b bs =>
      rw [strCmpL, strCmpL]
      by_cases h1 : a.toNat < b.toNat
      · rw [if_pos h1, if_neg (by omega), if_pos h1]
        omega
      · by_cases h2 : b.toNat < a.toNat
        · rw [if_pos h2, if_neg h1, if_pos h2]
        · rw [if_neg h2, if_neg h1, if_neg h1, if_neg h2]
          exact ih bs

theorem scmp_refl (s : String) : scmp s s = 0 := strCmpL_refl s.data

theorem scmp_swap (s t : String) : scmp t s = -(scmp s t) := strCmpL_swap s.data t.data

theorem patchCmp_swap (a b : InPlacePatch) : patchCmp b a = -(patchCmp a b) := by
  rw [patchCmp, patchCmp]
  rw [ncmp_swap b.resolvedVulns.length a.resolvedVulns.length]
  rw [scmp_swap b.pkg.name a.pkg.name, scmp_swap b.origVersion a.origVersion,
    scmp_swap b.newVersion a.newVersion]
  split_ifs <;> omega

theorem patchLe_total (a b : InPlacePatch) : patchLe a b = true ∨ patchLe b a = true := by
  rw [patchLe, patchLe]
  by_cases h : patchCmp a b ≤ 0
  · left; exact decide_eq_true h
  · right
    apply decide_eq_true
    rw [patchCmp_swap]
    omega

theorem patchCmp_le_interp (a b : InPlacePatch) (h : patchCmp a b ≤ 0) :
    patchOrdAdj a b := by
  rw [patchCmp] at h
  by_cases h1 : ncmp a.resolvedVulns.length b.resolvedVulns.length ≠ 0
  · rw [if_pos h1] at h
    have hlen : b.resolvedVulns.length ≤ a.resolvedVulns.length := by
      rw [ncmp] at h h1
      split_ifs at h h1 <;> omega
    refine ⟨hlen, ?_, ?_, ?_⟩ <;> intro heq
    · exact absurd ((ncmp_eq_zero _ _).mpr heq) h1
    · exact absurd ((ncmp_eq_zero _ _).mpr heq) h1
    · exact absurd ((ncmp_eq_zero _ _).mpr heq) h1
  · rw [if_neg h1] at h
    have hlz : ncmp a.resolvedVulns.length b.resolvedVulns.length = 0 := by
      by_contra hcon
      exact h1 hcon
    have hlen : b.resolvedVulns.length ≤ a.resolvedVulns.length :=
      le_of_eq ((ncmp_eq_zero _ _).mp hlz).symm
    by_cases h2 : scmp a.pkg.name b.pkg.name ≠ 0
    · rw [if_pos h2] at h
      refine ⟨hlen, fun _ => h, ?_, ?_⟩ <;> intro _ hname
      · exact absurd (by rw [hname]; exact scmp_refl b.pkg.name) h2
      · exact absurd (by rw [hname]; exact scmp_refl b.pkg.name) h2
    · rw [if_neg h2] at h
      have h2z : scmp a.pkg.name b.pkg.name = 0 := by
        by_contra hcon
        exact h2 hcon
      by_cases h3 : scmp a.origVersion b.origVersion ≠ 0
      · rw [if_pos h3] at h
        refine ⟨hlen, fun _ => le_of_eq h2z, fun _ _ => h, ?_⟩
        intro _ _ horig
        exact absurd (by rw [horig]; exact scmp_refl b.origVersion) h3
      · rw [if_neg h3] at h
        have h3z : scmp a.origVersion b.origVersion = 0 := by
          by_contra hcon
          exact h3 hcon
        refine ⟨hlen, fun _ => le_of_eq h2z, fun _ _ => le_of_eq h3z, fun _ _ _ => ?_⟩
        rw [scmp_swap]
        omega

theorem computeInPlacePatches_ok_elim (c : Collab) (g : Graph)
    (opts : RemediationOptions) (fuel : Nat) (out : InPlaceResult)
    (h : ComputeInPlacePatches c g opts fuel = some (Except.ok out)) :
    ∃ res cmap r, inPlaceVulnsNodes c g fuel = Except.ok res ∧
      computeConstraintMap c res.vkVulns = some cmap ∧
      processAll c opts res cmap ⟨[], []⟩ res.vkVulns = some (Except.ok r) ∧
      out = ⟨sortBy patchLe r.patches, r.unfixable⟩ := by
  rw [ComputeInPlacePatches] at h
  cases hres : inPlaceVulnsNodes c g fuel with
  | error n => rw [hres] at h; exact absurd h (by simp)
  | ok res =>
    rw [hres] at h
    dsimp only at h
    cases hcm : computeConstraintMap c res.vkVulns with
    | none => rw [hcm] at h; exact absurd h (by simp)
    | some cmap =>
      rw [hcm] at h
      dsimp only at h
      cases hpa : processAll c opts res cmap ⟨[], []⟩ res.vkVulns with
      | none => rw [hpa] at h; exact absurd h (by simp)
      | some r =>
        rw [hpa] at h
        cases r with
        | error n => exact absurd h (by simp)
        | ok r =>
          simp only [Option.some.injEq, Except.ok.injEq] at h
          exact ⟨res, cmap, r, rfl, hcm, hpa, h.symm⟩

/-- C4: in every result of `ComputeInPlacePatches` no two patches share the
same `(Pkg, OrigVersion, NewVersion)` triple, and a vulnerability whose fix
is an already-recorded transition is appended to that patch (the patch list
does not grow). -/
theorem computeInPlacePatches_patch_dedup (c : Collab) (g : Graph)
    (opts : RemediationOptions) (fuel : Nat) (out : InPlaceResult)
    (h : ComputeInPlacePatches c g opts fuel = some (Except.ok out)) :
    (out.patches.map dpTriple).Nodup ∧
    ∀ (patches : List InPlacePatch) (vk : VersionKey) (newV : String)
      (vuln : ResolutionVuln),
      (∃ p ∈ patches, dpTriple p = (vk.pkg, vk.version, newV)) →
      (addPatchTo patches vk newV vuln).length = patches.length := by
  constructor
  · rcases computeInPlacePatches_ok_elim c g opts fuel out h with
      ⟨res, cmap, r, hres, hcm, hpa, hout⟩
    have hnd := (processAll_ok c opts res cmap res.vkVulns ⟨[], []⟩ r hpa).1 (by simp)
    rw [hout]
    exact (((sortBy_perm patchLe r.patches).map dpTriple).nodup_iff).mpr hnd
  · intro patches vk newV vuln hex
    exact addPatchTo_len_found patches vk newV vuln hex

/-- C4 witness: a concrete run producing one patch. -/
theorem computeInPlacePatches_patch_dedup_witness :
    (([⟨pkA, "1.0.0", "1.0.1", [rvVuln1]⟩] : List InPlacePatch).map dpTriple).Nodup :=
  (computeInPlacePatches_patch_dedup cOk gRA optsAll 10
    ⟨[⟨pkA, "1.0.0", "1.0.1", [rvVuln1]⟩], []⟩ rfl).1

/-- C5: the patch list of every result of `ComputeInPlacePatches` is ordered
so that each adjacent pair satisfies: fixed-vulnerability count
equal-or-greater, ties broken ascending by package name, then ascending by
original version under lexical string comparison, then descending by new
version. -/
theorem computeInPlacePatches_sorted (c : Collab) (g : Graph)
    (opts : RemediationOptions) (fuel : Nat) (out : InPlaceResult)
    (h : ComputeInPlacePatches c g opts fuel = some (Except.ok out)) :
    List.Chain' patchOrdAdj out.patches := by
  rcases computeInPlacePatches_ok_elim c g opts fuel out h with
    ⟨res, cmap, r, hres, hcm, hpa, hout⟩
  rw [hout]
  have hch := sortBy_chain' patchLe patchLe_total r.patches
  exact hch.imp (fun a b hab => patchCmp_le_interp a b (of_decide_eq_true hab))

/-- C5 witness: the theorem applied to a concrete run. -/
theorem computeInPlacePatches_sorted_witness :
    List.Chain' patchOrdAdj ([⟨pkA, "1.0.0", "1.0.1", [rvVuln1]⟩] : List InPlacePatch) :=
  computeInPlacePatches_sorted cOk gRA optsAll 10
    ⟨[⟨pkA, "1.0.0", "1.0.1", [rvVuln1]⟩], []⟩ rfl

/-- C6 counterexample: package A is in the avoid list and hosts VULN-1, but
with a vulnerability filter that rejects VULN-1 the result's Unfixable list
is empty — the vulnerability appears nowhere, contradicting the claim that
every vulnerability on an avoided package appears in Unfixable. -/
theorem computeInPlacePatches_avoid_cex :
    inPlaceVulnsNodes cOk gRA 10 = Except.ok resRA ∧
    c6opts.avoidPkgs.contains vkA0.pkg.name = true ∧
    ComputeInPlacePatches cOk gRA c6opts 10 = some (Except.ok ⟨[], []⟩) :=
  ⟨rfl, rfl, rfl⟩

/-- C6 (amended): for every package in AvoidPkgs, every vulnerability on
that package that passes the options' vulnerability filter appears in the
result's Unfixable list, and no patch ever targets an avoided package. -/
theorem computeInPlacePatches_avoid (c : Collab) (g : Graph)
    (opts : RemediationOptions) (fuel : Nat) (res : IPVN) (out : InPlaceResult)
    (hres : inPlaceVulnsNodes c g fuel = Except.ok res)
    (h : ComputeInPlacePatches c g opts fuel = some (Except.ok out)) :
    (∀ q ∈ out.patches, opts.avoidPkgs.contains q.pkg.name = false) ∧
    (∀ e ∈ res.vkVulns, opts.avoidPkgs.contains e.1.pkg.name = true →
      ∀ v ∈ e.2, opts.matchVuln v = true → v ∈ out.unfixable) := by
  rcases computeInPlacePatches_ok_elim c g opts fuel out h with
    ⟨res2, cmap, r, hres2, hcm, hpa, hout⟩
  have hre : res2 = res := by
    rw [hres] at hres2
    exact ((Except.ok.injEq _ _).mp hres2).symm
  rw [hre] at hcm hpa
  constructor
  · intro q hq
    rw [hout] at hq
    have hq2 : q ∈ r.patches := (sortBy_perm patchLe r.patches).mem_iff.mp hq
    rcases (processAll_ok c opts res cmap res.vkVulns ⟨[], []⟩ r hpa).2.2 q hq2 with
      hc | hc
    · simp at hc
    · exact hc
  · intro e he ha v hv hm
    rcases e with ⟨vk, vl⟩
    rw [hout]
    exact processAll_avoid c opts res cmap res.vkVulns ⟨[], []⟩ r vk vl he ha hpa v hv hm

/-- C6 witness: the amended theorem applied to a concrete run with a
matching filter. -/
theorem computeInPlacePatches_avoid_witness : rvVuln1 ∈ [rvVuln1] :=
  (computeInPlacePatches_avoid cOk gRA c6wopts 10 resRA ⟨[], [rvVuln1]⟩ rfl rfl).2
    (vkA0, [rvVuln1]) (by decide) rfl rvVuln1 (by decide) rfl

theorem processVuln_versErr (c : Collab) (opts : RemediationOptions) (res : IPVN)
    (cmap : List (VersionKey × SemSet)) (vk : VersionKey) (acc : InPlaceResult)
    (vuln : ResolutionVuln) (n : Nat) (hv : c.versions vk.pkg = Except.error n)
    (hm : opts.matchVuln vuln = true)
    (ha : opts.avoidPkgs.contains vk.pkg.name = false) :
    processVuln c opts res cmap vk acc vuln = some (Except.error n) := by
  rw [processVuln, hm]
  simp only [Bool.not_true, if_neg (by decide : ¬ (false = true))]
  rw [if_neg (by rw [ha]; exact Bool.false_ne_true)]
  rw [findFixedVersion, hv]

theorem processVulnList_versErr (c : Collab) (opts : RemediationOptions) (res : IPVN)
    (cmap : List (VersionKey × SemSet)) (vk : VersionKey) (n : Nat)
    (hv : c.versions vk.pkg = Except.error n)
    (ha : opts.avoidPkgs.contains vk.pkg.name = false) :
    ∀ (vulns : List ResolutionVuln) (acc : InPlaceResult),
      (∃ v ∈ vulns, opts.matchVuln v = true) →
      processVulnList c opts res cmap vk acc vulns = some (Except.error n) := by
  intro vulns
  induction vulns with
  | nil => intro acc hex; rcases hex with ⟨v, hv2, _⟩; simp at hv2
  | cons w rest ih =>
    intro acc hex
    rw [processVulnList]
    cases hwm : opts.matchVuln w with
    | true =>
      rw [processVuln_versErr c opts res cmap vk acc w n hv hwm ha]
    | false =>
      rw [processVuln_skip c opts res cmap vk acc w hwm]
      apply ih
      rcases hex with ⟨v, hv2, hvm⟩
      rcases List.mem_cons.mp hv2 with hv2 | hv2
      · rw [hv2] at hvm; rw [hvm] at hwm; exact absurd hwm (by simp)
      · exact ⟨v, hv2, hvm⟩

theorem processVulnList_calm (c : Collab) (opts : RemediationOptions) (res : IPVN)
    (cmap : List (VersionKey × SemSet)) (vk : VersionKey) :
    ∀ (vulns : List ResolutionVuln) (acc : InPlaceResult),
      (opts.avoidPkgs.contains vk.pkg.name = true ∨
        ∀ v ∈ vulns, opts.matchVuln v = false) →
      ∃ acc2, processVulnList c opts res cmap vk acc vulns = some (Except.ok acc2) := by
  intro vulns
  induction vulns with
  | nil => intro acc _; exact ⟨acc, rfl⟩
  | cons w rest ih =>
    intro acc hcond
    rw [processVulnList]
    cases hwm : opts.matchVuln w with
    | true =>
      rcases hcond with ha | hall
      · rw [processVuln_avoid c opts res cmap vk acc w hwm ha]
        exact ih _ (Or.inl ha)
      · exact absurd hwm (by rw [hall w (List.mem_cons_self _ _)]; simp)
    | false =>
      rw [processVuln_skip c opts res cmap vk acc w hwm]
      rcases hcond with ha | hall
      · exact ih _ (Or.inl ha)
      · exact ih _ (Or.inr (fun v hv => hall v (List.mem_cons_of_mem _ hv)))

theorem processAll_versErr (c : Collab) (opts : RemediationOptions) (res : IPVN)
    (cmap : List (VersionKey × SemSet)) (n : Nat)
    (hv : ∀ pk, c.versions pk = Except.error n) :
    ∀ (l : List (VersionKey × List ResolutionVuln)) (acc : InPlaceResult),
      (∃ p ∈ l, opts.avoidPkgs.contains p.1.pkg.name = false ∧
        ∃ v ∈ p.2, opts.matchVuln v = true) →
      processAll c opts res cmap acc l = some (Except.error n) := by
  intro l
  induction l with
  | nil => intro acc hex; rcases hex with ⟨p, hp, _⟩; simp at hp
  | cons q rest ih =>
    intro acc hex
    rcases q with ⟨vk, vulns⟩
    rw [processAll]
    by_cases htrig : opts.avoidPkgs.contains vk.pkg.name = false ∧
        ∃ v ∈ vulns, opts.matchVuln v = true
    · rw [processVulnList_versErr c opts res cmap vk n (hv vk.pkg) htrig.1 vulns acc htrig.2]
    · have hcalm : opts.avoidPkgs.contains vk.pkg.name = true ∨
          ∀ v ∈ vulns, opts.matchVuln v = false := by
        by_cases ha : opts.avoidPkgs.contains vk.pkg.name = true
        · exact Or.inl ha
        · right
          intro v hvm
          cases hm : opts.matchVuln v with
          | false => rfl
          | true =>
            exact absurd ⟨Bool.not_eq_true _ ▸ ha, v, hvm, hm⟩ htrig
      rcases processVulnList_calm c opts res cmap vk vulns acc hcalm with ⟨acc2, hcc⟩
      rw [hcc]
      apply ih
      rcases hex with ⟨p, hp, hpa, hpv⟩
      rcases List.mem_cons.mp hp with hp | hp
      · exfalso
        apply htrig
        rw [hp] at hpa hpv
        exact ⟨hpa, hpv⟩
      · exact ⟨p, hp, hpa, hpv⟩

/-- C1 (amended): only failures of the version-listing call abort
`ComputeInPlacePatches`: (1) when the client's `Versions` always fails and
some vulnerability passes the filter on a non-avoided package, the whole
invocation returns that error (no result is produced); (2) a failure of the
requirements fetch (and of constraint parsing inside it) during the
candidate predicate is non-fatal — the candidate is merely rejected; (3)
the impossible-fix outcome is non-fatal, appending the vulnerability to
Unfixable. -/
theorem computeInPlacePatches_error_flow :
    (∀ (c : Collab) (g : Graph) (opts : RemediationOptions) (fuel n : Nat)
      (res : IPVN) (cmap : List (VersionKey × SemSet)),
      (∀ pk, c.versions pk = Except.error n) →
      inPlaceVulnsNodes c g fuel = Except.ok res →
      computeConstraintMap c res.vkVulns = some cmap →
      (∃ p ∈ res.vkVulns, opts.avoidPkgs.contains p.1.pkg.name = false ∧
        ∃ v ∈ p.2, opts.matchVuln v = true) →
      ComputeInPlacePatches c g opts fuel = some (Except.error n)) ∧
    (∀ (c : Collab) (opts : RemediationOptions) (res : IPVN)
      (cmap : List (VersionKey × SemSet)) (vk : VersionKey) (vuln : ResolutionVuln)
      (newVK : VersionKey) (m : Nat) (nID : Nat) (nrest : List Nat),
      c.requirements newVK = Except.error m →
      checkMajor c opts vk newVK = true →
      checkConstraint c vk.pkg.system (assocD cmap vk []) newVK.version = true →
      assocD res.vkNodes vk [] = nID :: nrest →
      satisfyPred c opts res cmap vk vuln newVK = some false) ∧
    (∀ (c : Collab) (opts : RemediationOptions) (res : IPVN)
      (cmap : List (VersionKey × SemSet)) (vk : VersionKey) (acc : InPlaceResult)
      (vuln : ResolutionVuln),
      opts.matchVuln vuln = true →
      opts.avoidPkgs.contains vk.pkg.name = false →
      findFixedVersion c vk.pkg (satisfyPred c opts res cmap vk vuln) =
        some (Except.error FFVErr.impossible) →
      processVuln c opts res cmap vk acc vuln =
        some (Except.ok ⟨acc.patches, acc.unfixable ++ [vuln]⟩)) := by
  refine ⟨?_, ?_, ?_⟩
  · intro c g opts fuel n res cmap hv hres hcm hex
    rw [ComputeInPlacePatches, hres]
    dsimp only
    rw [hcm]
    dsimp only
    rw [processAll_versErr c opts res cmap n hv res.vkVulns ⟨[], []⟩ hex]
  · intro c opts res cmap vk vuln newVK m nID nrest hreq hmaj hcon hnodes
    rw [satisfyPred, hmaj, hcon]
    simp only [Bool.not_true, if_neg (by decide : ¬ (false = true))]
    rw [hnodes, checkNodes, dependenciesSatisfied, hreq]
  · intro c opts res cmap vk acc vuln hm ha himp
    rw [processVuln, hm]
    simp only [Bool.not_true, if_neg (by decide : ¬ (false = true))]
    rw [if_neg (by rw [ha]; exact Bool.false_ne_true)]
    rw [himp]

/-- C1 counterexample: the requirements fetch fails (error 7) on every call
made during the candidate search, yet `ComputeInPlacePatches` does NOT
abort with that error: it returns a successful result with the
vulnerability in Unfixable (the failed fetches are swallowed by the
predicate and merely reject each candidate). -/
theorem computeInPlacePatches_abort_cex :
    cBase.requirements vkA1 = Except.error 7 ∧
    cBase.requirements vkA0 = Except.error 7 ∧
    ComputeInPlacePatches cBase gRA optsAll 10 = some (Except.ok ⟨[], [rvVuln1]⟩) :=
  ⟨rfl, rfl, rfl⟩

/-- C1 witness: the three parts of the amended theorem at concrete inputs. -/
theorem computeInPlacePatches_error_flow_witness :
    ComputeInPlacePatches cVersErr gRA optsAll 10 = some (Except.error 9) ∧
    satisfyPred cBase optsAll resRA [(vkA0, ["^1.0.0"])] vkA0 rvVuln1 vkA1 = some false ∧
    processVuln cBase optsAll resRA [(vkA0, ["^1.0.0"])] vkA0 ⟨[], []⟩ rvVuln1 =
      some (Except.ok ⟨[], [] ++ [rvVuln1]⟩) :=
  ⟨computeInPlacePatches_error_flow.1 cVersErr gRA optsAll 10 9 resRA
      [(vkA0, ["^1.0.0"])] (fun pk => rfl) rfl rfl
      ⟨(vkA0, [rvVuln1]), by decide, rfl, rvVuln1, by decide, rfl⟩,
   computeInPlacePatches_error_flow.2.1 cBase optsAll resRA [(vkA0, ["^1.0.0"])]
      vkA0 rvVuln1 vkA1 7 1 [] rfl rfl rfl (by decide),
   computeInPlacePatches_error_flow.2.2 cBase optsAll resRA [(vkA0, ["^1.0.0"])]
      vkA0 ⟨[], []⟩ rvVuln1 rfl rfl rfl⟩

theorem indexFunc_eraseIdx {α : Type} (q : α → Bool) (l : List α)
    (hex : ∃ x ∈ l, q x = true) :
    ∃ idx elem, indexFunc q l = some idx ∧ q elem = true ∧
      ∀ p : α → Bool, l.countP p = ((l.eraseIdx idx).countP p +
        if p elem then 1 else 0) := by
  induction l with
  | nil => rcases hex with ⟨x, hx, _⟩; simp at hx
  | cons x xs ih =>
    by_cases hqx : q x = true
    · refine ⟨0, x, ?_, hqx, ?_⟩
      · rw [indexFunc, if_pos hqx]
      · intro p
        rw [List.eraseIdx_cons_zero, List.countP_cons]
    · have hex2 : ∃ y ∈ xs, q y = true := by
        rcases hex with ⟨y, hy, hqy⟩
        rcases List.mem_cons.mp hy with hy | hy
        · rw [hy] at hqy; exact absurd hqy hqx
        · exact ⟨y, hy, hqy⟩
      rcases ih hex2 with ⟨idx, elem, hif, hqe, hcnt⟩
      refine ⟨idx + 1, elem, ?_, hqe, ?_⟩
      · rw [indexFunc, if_neg hqx, hif]
        rfl
      · intro p
        rw [List.eraseIdx_cons_succ, List.countP_cons, List.countP_cons, hcnt p]
        omega

theorem removeOpts_total (children : List VersionKey) :
    ∀ (optDeps deps : List VersionKey),
      (∀ o ∈ optDeps, children.any (fun vk => vk.pkg.name == o.pkg.name) = false →
        optDeps.countP (fun x => x.pkg.name == o.pkg.name) ≤
          deps.countP (fun x => x.pkg.name == o.pkg.name)) →
      removeOpts children deps optDeps ≠ none := by
  intro optDeps
  induction optDeps with
  | nil => intro deps h; rw [removeOpts]; simp
  | cons o rest ih =>
    intro deps h
    rw [removeOpts]
    by_cases hin : children.any (fun vk => vk.pkg.name == o.pkg.name) = true
    · rw [if_pos hin]
      apply ih
      intro o2 ho2 ho2nin
      have hpo : (o.pkg.name == o2.pkg.name) = false := by
        by_contra hcon
        have hname : o.pkg.name = o2.pkg.name :=
          beq_iff_eq.mp (Bool.not_eq_false _ ▸ hcon)
        rw [← hname] at ho2nin
        rw [hin] at ho2nin
        exact absurd ho2nin (by simp)
      have hc := h o2 (List.mem_cons_of_mem _ ho2) ho2nin
      rw [List.countP_cons] at hc
      rw [hpo] at hc
      simpa using hc
    · rw [if_neg hin]
      have hin2 : children.any (fun vk => vk.pkg.name == o.pkg.name) = false :=
        Bool.not_eq_true _ ▸ hin
      have hself := h o (List.mem_cons_self _ _) hin2
      have hpos : 0 < deps.countP (fun x => x.pkg.name == o.pkg.name) := by
        have h1 : 0 < (o :: rest).countP (fun x => x.pkg.name == o.pkg.name) := by
          rw [List.countP_cons]
          simp
        omega
      rcases indexFunc_eraseIdx (fun vk => vk.pkg.name == o.pkg.name) deps
          (List.countP_pos_iff.mp hpos) with ⟨idx, elem, hif, hqe, hcnt⟩
      rw [hif]
      apply ih
      intro o2 ho2 ho2nin
      have hc := h o2 (List.mem_cons_of_mem _ ho2) ho2nin
      have hceq := hcnt (fun x => x.pkg.name == o2.pkg.name)
      rw [List.countP_cons] at hc
      by_cases hname : o.pkg.name = o2.pkg.name
      · have hpo : (o.pkg.name == o2.pkg.name) = true := beq_iff_eq.mpr hname
        have hpe : (elem.pkg.name == o2.pkg.name) = true := by
          have h2 : elem.pkg.name = o.pkg.name := beq_iff_eq.mp hqe
          rw [h2, hname]
          exact beq_self_eq_true _
        rw [hpo] at hc
        simp at hc
        rw [hpe] at hceq
        simp at hceq
        omega
      · have hpo : (o.pkg.name == o2.pkg.name) = false := by
          by_contra hcon
          exact hname (beq_iff_eq.mp (Bool.not_eq_false _ ▸ hcon))
        have hpe : (elem.pkg.name == o2.pkg.name) = false := by
          by_contra hcon
          have h1 : elem.pkg.name = o2.pkg.name :=
            beq_iff_eq.mp (Bool.not_eq_false _ ▸ hcon)
          have h2 : elem.pkg.name = o.pkg.name := beq_iff_eq.mp hqe
          exact hname (h2 ▸ h1)
        rw [hpo] at hc
        rw [hpe] at hceq
        simp at hceq
        omega

/-- C8 (amended): `dependenciesSatisfied` never panics provided every
optional dependency whose package is absent from the children occurs at
least as often among the regular dependencies as among the optional ones
(in particular when every optional dependency also occurs as a regular
dependency, as the code's comment assumes); when the requirements response
contains an optional-only dependency absent from the children, the
`slices.Delete` index is `-1` and the code panics (see the counterexample). -/
theorem dependenciesSatisfied_total (c : Collab) (vk : VersionKey)
    (children : List VersionKey) (reqs : List Req)
    (hreq : c.requirements vk = Except.ok reqs)
    (h : ∀ o ∈ (reqs.filter (fun r => !r.isRegular && r.hasOpt)).map (fun r => r.key),
      children.any (fun vk2 => vk2.pkg.name == o.pkg.name) = false →
      ((reqs.filter (fun r => !r.isRegular && r.hasOpt)).map
          (fun r => r.key)).countP (fun x => x.pkg.name == o.pkg.name) ≤
        ((reqs.filter (fun r => r.isRegular)).map
          (fun r => r.key)).countP (fun x => x.pkg.name == o.pkg.name)) :
    dependenciesSatisfied c vk children ≠ none := by
  rw [dependenciesSatisfied, hreq]
  dsimp only
  have hro := removeOpts_total children
    ((reqs.filter (fun r => !r.isRegular && r.hasOpt)).map (fun r => r.key))
    ((reqs.filter (fun r => r.isRegular)).map (fun r => r.key)) h
  cases hrw : removeOpts children
      ((reqs.filter (fun r => r.isRegular)).map (fun r => r.key))
      ((reqs.filter (fun r => !r.isRegular && r.hasOpt)).map (fun r => r.key)) with
  | none => exact absurd hrw hro
  | some deps2 => simp

/-- C8 counterexample: with an optional dependency on B absent from the
children and no regular dependency on B, `dependenciesSatisfied` panics
(`slices.Delete` receives index `-1`), modelled as `none`. -/
theorem dependenciesSatisfied_total_cex :
    cOptOnly.requirements vkA1 =
      Except.ok [⟨⟨pkB, "^1", VersionType.requirement⟩, false, true⟩] ∧
    dependenciesSatisfied cOptOnly vkA1 [] = none :=
  ⟨rfl, rfl⟩

/-- C8 witness: the amended theorem applied to a requirements response in
which the optional dependency also occurs as a regular dependency. -/
theorem dependenciesSatisfied_total_witness :
    dependenciesSatisfied cOptBoth vkA1 [] ≠ none :=
  dependenciesSatisfied_total cOptBoth vkA1 []
    [⟨⟨pkB, "^1", VersionType.requirement⟩, true, false⟩,
     ⟨⟨pkB, "^1", VersionType.requirement⟩, false, true⟩] rfl (by decide)

theorem endReqs_total (chains : List DependencyChain)
    (h : ∀ ch ∈ chains, ch.EndDependency ≠ none) :
    ∃ rs, endReqs chains = some rs ∧ rs.length = chains.length := by
  induction chains with
  | nil => exact ⟨[], rfl, rfl⟩
  | cons ch rest ih =>
    rw [endReqs]
    cases hend : ch.EndDependency with
    | none => exact absurd hend (h ch (List.mem_cons_self _ _))
    | some pr =>
      rcases ih (fun ch2 hch2 => h ch2 (List.mem_cons_of_mem _ hch2)) with ⟨rs, hrs, hlen⟩
      rw [hrs]
      exact ⟨pr.2 :: rs, by cases pr; rfl, by simp [hlen]⟩

theorem dedupFirst_ne_nil {α : Type} [DecidableEq α] (x : α) (xs : List α) :
    dedupFirst (x :: xs) ≠ [] := by
  rw [dedupFirst, dedupAcc]
  simp

/-- C9 (amended): the constraint-building stage never panics provided every
vulnerable version key has at least one problem chain (and every chain's
end-dependency access is in range): `buildConstraintSet` then always
receives a nonempty requirement list.  When a vulnerable node has no
incoming edges (e.g. the root itself is vulnerable), it has no problem
chains, the requirement list is empty and `buildConstraintSet` panics on
`requiredVers[0]` (see the counterexample). -/
theorem computeConstraintMap_total (c : Collab)
    (l : List (VersionKey × List ResolutionVuln))
    (hend : ∀ p ∈ l, ∀ v ∈ p.2, ∀ ch ∈ v.problemChains, ch.EndDependency ≠ none)
    (hne : ∀ p ∈ l, ∃ v ∈ p.2, v.problemChains ≠ []) :
    computeConstraintMap c l ≠ none := by
  induction l with
  | nil => rw [computeConstraintMap]; simp
  | cons p rest ih =>
    rcases p with ⟨vk, vulns⟩
    rw [computeConstraintMap]
    have hend1 : ∀ ch ∈ vulns.flatMap (fun v => v.problemChains),
        ch.EndDependency ≠ none := by
      intro ch hch
      rcases List.mem_flatMap.mp hch with ⟨v, hv, hchv⟩
      exact hend (vk, vulns) (List.mem_cons_self _ _) v hv ch hchv
    rcases endReqs_total _ hend1 with ⟨rs, hrs, hlen⟩
    have hrne : rs ≠ [] := by
      rcases hne (vk, vulns) (List.mem_cons_self _ _) with ⟨v, hv, hvne⟩
      intro hcon
      rw [hcon] at hlen
      cases hchains : v.problemChains with
      | nil => exact hvne hchains
      | cons ch chs =>
        have hmem : ch ∈ vulns.flatMap (fun v => v.problemChains) :=
          List.mem_flatMap.mpr ⟨v, hv, by rw [hchains]; exact List.mem_cons_self _ _⟩
        have hflat : vulns.flatMap (fun v => v.problemChains) = [] := by
          have hl0 : (vulns.flatMap (fun v => v.problemChains)).length = 0 := by
            simpa using hlen.symm
          exact List.length_eq_zero.mp hl0
        rw [hflat] at hmem
        simp at hmem
    rw [reqVersOf, hrs]
    simp only [Option.map_some']
    cases hrs2 : rs with
    | nil => exact absurd hrs2 hrne
    | cons r0 rrest =>
      have hdne := dedupFirst_ne_nil r0 rrest
      cases hded : dedupFirst (r0 :: rrest) with
      | nil => exact absurd hded hdne
      | cons d0 drest =>
        rw [buildConstraintSet]
        cases c.parseConstraint vk.pkg.system (subLatest d0) with
        | error n =>
          dsimp only
          cases hcm : computeConstraintMap c rest with
          | none =>
            exact absurd hcm (ih
              (fun p hp => hend p (List.mem_cons_of_mem _ hp))
              (fun p hp => hne p (List.mem_cons_of_mem _ hp)))
          | some m => simp
        | ok u =>
          dsimp only
          cases hcm : computeConstraintMap c rest with
          | none =>
            exact absurd hcm (ih
              (fun p hp => hend p (List.mem_cons_of_mem _ hp))
              (fun p hp => hne p (List.mem_cons_of_mem _ hp)))
          | some m =>
            cases bcsLoop c vk.pkg.system [subLatest d0] drest with
            | error n => simp
            | ok set => simp

/-- C9 counterexample: when the vulnerable node has no incoming edges (here
the root itself is vulnerable), it contributes no problem chains, the
requirement list passed to `buildConstraintSet` is empty, and the access of
its first element is out of range — `ComputeInPlacePatches` panics
(modelled as `none`). -/
theorem buildConstraintSet_panic_cex :
    buildConstraintSet cBase 0 [] = none ∧
    inPlaceVulnsNodes c9collab c9g 10 =
      Except.ok ⟨[], [(vkRoot, [⟨"V0", [], false⟩])], [(vkRoot, [0])]⟩ ∧
    ComputeInPlacePatches c9collab c9g optsAll 10 = none :=
  ⟨rfl, rfl, rfl⟩

/-- C9 witness: the amended theorem applied to an aggregate in which the
vulnerable version key has a problem chain. -/
theorem computeConstraintMap_total_witness :
    computeConstraintMap cOk resRA.vkVulns ≠ none :=
  computeConstraintMap_total cOk resRA.vkVulns (by decide) (by decide)
